import Mathlib

/-!
# Verification of the smart-file-organizer engine

Shallow embedding of `src/smart_organizer/core.py` (class `OrganizerEngine`)
and of the one-shot scan loop of `src/smart_organizer/cli.py`.

Modelling conventions:
* A filesystem path is the list of its components (`FsPath := List String`).
* The filesystem is a pair of an association list of files (path ↦ file data)
  and a list of directories.  A file's data is its byte content — `none` when
  the file cannot be opened/read — together with its creation time.
* SHA-256 hashing (`_calculate_hash`) is modelled content-addressed: the digest
  of readable content `c` is `HashV.digest c` (SHA-256 is treated as
  collision-free), and any read failure yields the empty-string sentinel,
  modelled as `HashV.sentinel`.  Equality of `HashV` values mirrors Python
  string equality of hexdigests: two sentinels (two `""`) compare equal.
* Python exceptions are modelled by `Option`: `none` means the operation
  raised.  In particular `json.load` on an unparsable history file raises
  `JSONDecodeError`, modelled by the `LedgerFile.corrupt` constructor.
* `datetime.fromtimestamp(ts).strftime(..)` is an external library call,
  threaded through as an oracle parameter `fmtDate : Nat → String`;
  `time.time()` likewise as a parameter `now : Nat`.
* `shutil.move` of a directory never occurs at the organizer's call sites
  (`process_file` skips directories and only ever records file moves), so the
  model treats it as a failure.
-/

abbrev FsPath := List String

/-- `p.dropLast`: the parent directory of a path (`FsPath.parent` in pathlib). -/
def parentOf (p : FsPath) : FsPath := p.dropLast

/-- `file_path.name`: the final component of a path. -/
def pathName (p : FsPath) : String := p.getLastD ""

/-- `p` is a direct child of directory `d` (used to model `d.iterdir()`). -/
def inDir (p d : FsPath) : Bool := !p.isEmpty && p.dropLast == d

/-- Content and creation time of one file.  `content = none` models a file
whose bytes cannot be read (permission error, race with deletion, ...). -/
structure FileData where
  content : Option (List Nat)
  ctime : Nat
deriving DecidableEq

/-- The filesystem: an association list of files and the list of existing
directories. -/
structure FS where
  files : List (FsPath × FileData)
  dirs : List FsPath
deriving DecidableEq

/-- `FsPath.exists()`: a file or a directory is present at `p`. -/
def FS.existsB (fs : FS) (p : FsPath) : Bool :=
  (fs.files.lookup p).isSome || fs.dirs.contains p

/-- `FsPath.is_dir()`. -/
def FS.isDirB (fs : FS) (p : FsPath) : Bool := fs.dirs.contains p

/-- `FsPath.mkdir(exist_ok=True)`: no-op when the directory exists; raises
`FileExistsError` when a non-directory occupies the path and
`FileNotFoundError` when the parent directory is missing (`parents` is not
passed); otherwise creates the directory. -/
def FS.mkdirExistOk (fs : FS) (d : FsPath) : Option FS :=
  if fs.dirs.contains d then some fs
  else if (fs.files.lookup d).isSome then none
  else if fs.dirs.contains (parentOf d) then
    some { fs with dirs := d :: fs.dirs }
  else none

/-- The regular files directly inside directory `d`
(`[e for e in d.iterdir() if e.is_file()]`). -/
def FS.filesInDir (fs : FS) (d : FsPath) : List (FsPath × FileData) :=
  fs.files.filter (fun e => inDir e.1 d)

/-- `any(d.iterdir())`: the directory has at least one entry. -/
def FS.dirNonempty (fs : FS) (d : FsPath) : Bool :=
  fs.files.any (fun e => inDir e.1 d) || fs.dirs.any (fun x => inDir x d)

/-- `if not any(dst.parent.iterdir()): try: dst.parent.rmdir() except: pass` —
remove the directory when it is empty; any error is swallowed. -/
def FS.rmdirIfEmpty (fs : FS) (d : FsPath) : FS :=
  if fs.dirNonempty d then fs
  else { fs with dirs := fs.dirs.filter (fun x => !(x == d)) }

/-- `shutil.move(src, dst)` for the regular files the organizer moves:
raises when `src` is missing; when `dst` is an existing directory the file is
moved *into* it (`dst/<src name>`); an existing regular file at the target is
overwritten (POSIX rename); raises when the target's parent directory does
not exist.  Directory sources do not occur at the organizer's call sites and
are modelled as a failure. -/
def FS.move (fs : FS) (src dst : FsPath) : Option FS :=
  match fs.files.lookup src with
  | some fd =>
    let dst' := if fs.dirs.contains dst then dst ++ [pathName src] else dst
    if fs.dirs.contains (parentOf dst') then
      some { fs with
        files := (dst', fd) :: fs.files.filter (fun e => !(e.1 == src) && !(e.1 == dst')) }
    else none
  | none => none

/-- One entry of the history ledger: `{"src": ..., "dst": ..., "timestamp": ...}`. -/
structure MoveRecord where
  src : FsPath
  dst : FsPath
  timestamp : Nat
deriving DecidableEq

/-- The on-disk state of `.organizer_history.json`: absent, present but
unparsable (`json.load` raises `JSONDecodeError`), or a parsed JSON array of
move records. -/
inductive LedgerFile where
  | absent
  | corrupt
  | valid (records : List MoveRecord)
deriving DecidableEq

/-- The engine configuration fixed at construction (`OrganizerEngine.__init__`). -/
structure Engine where
  source : FsPath
  dry_run : Bool
deriving DecidableEq

/-- The mutable state `process_file`/`undo_last_operation` act on: the
filesystem, the history ledger file, and the in-memory simulated destination
set (`self.simulated_files`; the spec's design note makes the lazily
initialized set an always-present field, which is observationally identical). -/
structure OrganizerState where
  fs : FS
  ledger : LedgerFile
  simulated_files : List FsPath
deriving DecidableEq

/-! ## Rule tables (`OrganizerEngine.__init__`) -/

/-- 1. SMART CATEGORIES (Specific Keywords); `dict` iteration preserves
insertion order. -/
def rules : List (String × List String) :=
  [("Resumes", ["resume", "cv", "bio", "profile", "curriculum"]),
   ("Invoices", ["invoice", "bill", "receipt", "payment"]),
   ("Transcripts", ["transcript", "marksheet", "grade", "score"]),
   ("Contracts", ["agreement", "contract", "offer", "nda"]),
   ("Tax_Docs", ["w2", "1099", "tax", "return"])]

/-- 2. MEDIA TYPES (Extensions). -/
def media_exts : List (String × List String) :=
  [("Images", [".jpg", ".jpeg", ".png", ".heic", ".gif", ".webp"]),
   ("Videos", [".mp4", ".mov", ".avi", ".mkv", ".flv"]),
   ("Audio", [".mp3", ".wav", ".aac", ".m4a", ".flac"]),
   ("Archives", [".zip", ".rar", ".7z", ".dmg", ".iso"])]

/-- 3. FALLBACK GROUPS (Group specific extensions together). -/
def fallback_groups : List (String × List String) :=
  [("Misc_Notebooks", [".ipynb"]),
   ("Misc_Presentations", [".ppt", ".pptx", ".key", ".odp"]),
   ("Misc_Documents", [".doc", ".docx", ".odt", ".rtf", ".txt"]),
   ("Misc_Spreadsheets", [".xls", ".xlsx", ".csv"])]

/-! ## String helpers mirroring Python primitives -/

/-- `needle` occurs at the start of `hay` (Python `hay.startswith(needle)`,
used to build substring search). -/
def firstMatches : List Char → List Char → Bool
  | [], _ => true
  | _ :: _, [] => false
  | a :: as, b :: bs => a == b && firstMatches as bs

/-- Python `needle in hay` for strings: substring occurrence. -/
def isSubstring (needle hay : List Char) : Bool :=
  match hay with
  | [] => needle.isEmpty
  | _ :: t => firstMatches needle hay || isSubstring needle t

/-- Python `str.lower()` (per-character, ASCII-faithful). -/
def strLower (s : String) : String := String.mk (s.data.map Char.toLower)

/-- Python `str.upper()` (per-character, ASCII-faithful). -/
def strUpper (s : String) : String := String.mk (s.data.map Char.toUpper)

/-- Index of the last `'.'` in a list of characters (`str.rfind('.')`). -/
def rfindDot : List Char → Option Nat
  | [] => none
  | c :: cs =>
    match rfindDot cs with
    | some i => some (i + 1)
    | none => if c == '.' then some 0 else none

/-- `PurePath.suffix`: the extension of the final component — `name[i:]` for
the last dot index `i` when `0 < i < len(name) - 1`, else `""`. -/
def suffixOf (name : String) : String :=
  match rfindDot name.data with
  | none => ""
  | some i =>
    if 0 < i && i < name.data.length - 1 then String.mk (name.data.drop i) else ""

/-- `ext.lstrip('.')`. -/
def lstripDots (s : String) : String := String.mk (s.data.dropWhile (fun c => c == '.'))

/-! ## Decimal rendering (`str(n)` / `f"{n:02d}"`), fuel-structural so that it
evaluates by `decide`/`rfl`. -/

def digitChar (n : Nat) : Char := Char.ofNat (48 + n)

def natDigitsAux : Nat → Nat → List Char
  | 0, _ => []
  | fuel + 1, n =>
    if n < 10 then [digitChar n]
    else natDigitsAux fuel (n / 10) ++ [digitChar (n % 10)]

/-- The decimal digits of `n` (Python `str(n)` for naturals). -/
def natDigits (n : Nat) : List Char := natDigitsAux (n + 1) n

/-- Python `str(n)`. -/
def natRepr (n : Nat) : String := String.mk (natDigits n)

/-- Python `f"{n:02d}"`: zero-padded to width 2. -/
def pad2 (n : Nat) : String :=
  if n < 10 then String.mk ('0' :: natDigits n) else String.mk (natDigits n)

/-! ## The classifier (`_get_category`) -/

/-- First table entry whose extension list contains `ext`
(`for cat, extensions in tbl.items(): if ext in extensions: return cat`). -/
def tableLookup (tbl : List (String × List String)) (ext : String) : Option String :=
  (tbl.find? (fun e => e.2.contains ext)).map (fun e => e.1)

/-- First keyword rule matching the lowercased filename
(`for cat, keywords in self.rules.items(): if any(k in name for k in keywords)`). -/
def keywordLookup (name : String) : Option String :=
  (rules.find? (fun e => e.2.any (fun k => isSubstring k.data name.data))).map (fun e => e.1)

/-- `OrganizerEngine._get_category`: category from extension, keywords, or
extension grouping. -/
def _get_category (file_path : FsPath) : String :=
  let name := strLower (pathName file_path)
  let ext := strLower (suffixOf (pathName file_path))
  match tableLookup media_exts ext with
  | some cat => cat
  | none =>
    match keywordLookup name with
    | some cat => cat
    | none =>
      match tableLookup fallback_groups ext with
      | some g => g
      | none =>
        if ext != "" then "Misc_" ++ strUpper (lstripDots ext) else "Misc_Files"

/-! ## Content hashing (`_calculate_hash`) -/

/-- A hexdigest string: the sentinel `""` returned on any read failure, or the
digest of the (fully streamed) content.  `DecidableEq` mirrors Python `==` on
the hexdigest strings, with SHA-256 treated as collision-free. -/
inductive HashV where
  | sentinel
  | digest (c : List Nat)
deriving DecidableEq

/-- `OrganizerEngine._calculate_hash`: SHA-256 of the file at `p`, or the
empty-string sentinel when the file cannot be opened or read. -/
def _calculate_hash (fs : FS) (p : FsPath) : HashV :=
  match fs.files.lookup p with
  | none => HashV.sentinel
  | some fd =>
    match fd.content with
    | none => HashV.sentinel
    | some c => HashV.digest c

/-! ## Ledger append (`_log_move`) -/

/-- `OrganizerEngine._log_move`: read the current history (a missing file or a
`JSONDecodeError` yields the empty history), append the entry, and rewrite the
file — unless in dry-run mode, in which case nothing is persisted. -/
def _log_move (dry_run : Bool) (ledger : LedgerFile) (src dst : FsPath) (now : Nat) :
    LedgerFile :=
  let history : List MoveRecord :=
    match ledger with
    | LedgerFile.absent => []
    | LedgerFile.corrupt => []
    | LedgerFile.valid h => h
  let history := history ++ [⟨src, dst, now⟩]
  if !dry_run then LedgerFile.valid history else ledger

/-- The rename prefix derived from the category: special-cased short prefixes
for the media categories, otherwise `category[:-1]` when the name ends in
`'s'` and `len(category) > 4`, else the category itself. -/
def categoryPfx (category : String) : String :=
  if category == "Images" then "Img"
  else if category == "Videos" then "Vid"
  else if category == "Audio" then "Aud"
  else if category.data.getLastD ' ' == 's' && category.data.length > 4 then
    String.mk category.data.dropLast
  else category

/-! ## Collision-free naming (the two `while dest.exists() or ...` loops) -/

/-- The candidate stream of the standard date-sequence pattern:
`f"{prefix}_{date_str}_{idx:02d}{file_path.suffix}"` for `idx = k + 1`. -/
def stdStream (target_dir : FsPath) (pfx date_str sfx : String) (k : Nat) : FsPath :=
  target_dir ++ [pfx ++ "_" ++ date_str ++ "_" ++ pad2 (k + 1) ++ sfx]

/-- The candidate stream of the quarantine pattern: first the original name,
then `f"Duplicate_{idx}_{file_path.name}"` for `idx = 1, 2, ...`. -/
def dupStream (duplicate_dir : FsPath) (fname : String) : Nat → FsPath
  | 0 => duplicate_dir ++ [fname]
  | k + 1 => duplicate_dir ++ ["Duplicate_" ++ natRepr (k + 1) ++ "_" ++ fname]

/-- The `while` loop advancing through the candidate stream while the current
candidate is occupied.  The fuel passed by `process_file` always exceeds the
number of occupied names, so the loop exits exactly as in the source. -/
def searchFree (occ : FsPath → Bool) (σ : Nat → FsPath) : Nat → Nat → FsPath
  | k, 0 => σ k
  | k, fuel + 1 => if occ (σ k) then searchFree occ σ (k + 1) fuel else σ k

/-- `dest.exists() or (self.dry_run and str(dest) in self.simulated_files)`. -/
def occupiedB (eng : Engine) (st : OrganizerState) (fs : FS) (p : FsPath) : Bool :=
  fs.existsB p || (eng.dry_run && st.simulated_files.contains p)

/-- An upper bound on the number of occupied names, used as loop fuel. -/
def searchFuel (st : OrganizerState) (fs : FS) : Nat :=
  fs.files.length + fs.dirs.length + st.simulated_files.length + 1

/-! ## `process_file` -/

/-- The common tail of both branches of `process_file`: in a real run, move
the file and append a ledger record; in a dry run, only remember the simulated
destination.  The chosen destination (the printed outcome line) is returned. -/
def finishMove (eng : Engine) (now : Nat) (st : OrganizerState) (fs : FS)
    (file_path dest : FsPath) : Option (OrganizerState × Option FsPath) :=
  if eng.dry_run then
    some ({ st with fs := fs, simulated_files := dest :: st.simulated_files }, some dest)
  else
    match fs.move file_path dest with
    | none => none
    | some fs2 =>
      let st2 : OrganizerState :=
        { st with fs := fs2, ledger := _log_move eng.dry_run st.ledger file_path dest now }
      some (st2, some dest)

/-- `OrganizerEngine.process_file`: Categorize → Check Duplicates → Rename →
Move.  Returns `none` when the Python code would raise, otherwise the new
state and the chosen destination (`none` when the file was skipped). -/
def process_file (eng : Engine) (fmtDate : Nat → String) (now : Nat)
    (st : OrganizerState) (file_path : FsPath) : Option (OrganizerState × Option FsPath) :=
  if st.fs.isDirB file_path || firstMatches ".".data (pathName file_path).data then
    some (st, none)
  else
    let category := _get_category file_path
    let target_dir := eng.source ++ [category]
    match st.fs.mkdirExistOk target_dir with
    | none => none
    | some fs1 =>
      let current_hash := _calculate_hash fs1 file_path
      let is_duplicate :=
        (fs1.filesInDir target_dir).any
          (fun e => _calculate_hash fs1 e.1 == current_hash)
      if is_duplicate then
        let duplicate_dir := eng.source ++ ["Duplicates"]
        match fs1.mkdirExistOk duplicate_dir with
        | none => none
        | some fs2 =>
          let dest := searchFree (occupiedB eng st fs2)
            (dupStream duplicate_dir (pathName file_path)) 0 (searchFuel st fs2)
          finishMove eng now st fs2 file_path dest
      else
        match fs1.files.lookup file_path with
        | none => none
        | some fd =>
          let date_str := fmtDate fd.ctime
          let pfx := categoryPfx category
          let dest := searchFree (occupiedB eng st fs1)
            (stdStream target_dir pfx date_str (suffixOf (pathName file_path))) 0
            (searchFuel st fs1)
          finishMove eng now st fs1 file_path dest

/-! ## `undo_last_operation` -/

/-- One reversed ledger entry: restore `dst` back to `src` when `dst` still
exists (pruning the emptied parent folder), otherwise record a warning. -/
def undoStep (dry : Bool) (acc : FS × List FsPath) (entry : MoveRecord) :
    Option (FS × List FsPath) :=
  if acc.1.existsB entry.dst then
    if dry then some acc
    else
      match acc.1.move entry.dst entry.src with
      | none => none
      | some fs2 => some (fs2.rmdirIfEmpty (parentOf entry.dst), acc.2)
  else some (acc.1, acc.2 ++ [entry.dst])

/-- `OrganizerEngine.undo_last_operation`: replay the ledger latest-first,
then delete the history file (only in a real run).  Returns the warnings
printed for missing destinations; `none` when the Python code would raise —
notably `json.load` on an unparsable ledger is *not* guarded here. -/
def undo_last_operation (eng : Engine) (st : OrganizerState) :
    Option (OrganizerState × List FsPath) :=
  match st.ledger with
  | LedgerFile.absent => some (st, [])
  | LedgerFile.corrupt => none
  | LedgerFile.valid history =>
    if history.isEmpty then some (st, [])
    else
      match history.reverse.foldlM (fun acc entry => undoStep eng.dry_run acc entry)
          (st.fs, ([] : List FsPath)) with
      | none => none
      | some (fs2, warns) =>
        let st2 : OrganizerState :=
          { st with fs := fs2,
                    ledger := if !eng.dry_run then LedgerFile.absent else st.ledger }
        some (st2, warns)

/-! ## The one-shot scan loop (`cli.main`) -/

/-- The standard one-time run of `cli.main`: `process_file` on each scanned
item in order, collecting the chosen destinations. -/
def runAll (eng : Engine) (fmtDate : Nat → String) (now : Nat) :
    OrganizerState → List FsPath → Option (OrganizerState × List FsPath)
  | st, [] => some (st, [])
  | st, p :: ps =>
    match process_file eng fmtDate now st p with
    | none => none
    | some (st2, d) =>
      match runAll eng fmtDate now st2 ps with
      | none => none
      | some (st3, ds) => some (st3, d.toList ++ ds)

/-! # Generic lemmas about the model's building blocks -/

/-! ## Association-list lookups -/

theorem lookup_cons_eq (k : FsPath) (w : FileData) (t : List (FsPath × FileData)) :
    List.lookup k ((k, w) :: t) = some w := by
  simp [List.lookup]

theorem lookup_cons_ne {p k : FsPath} (w : FileData) (t : List (FsPath × FileData))
    (h : p ≠ k) : List.lookup p ((k, w) :: t) = List.lookup p t := by
  have hb : (p == k) = false := by simp [h]
  simp [List.lookup, hb]

theorem lookup_filter_key
    (l : List (FsPath × FileData)) (g : FsPath → Bool) (p : FsPath) :
    (l.filter (fun e => g e.1)).lookup p = if g p then l.lookup p else none := by
  induction l with
  | nil => simp
  | cons e t ih =>
    rcases e with ⟨k, w⟩
    by_cases hg : g k
    · by_cases hp : p = k
      · subst hp
        simp [List.filter_cons, hg, lookup_cons_eq]
      · simp only [List.filter_cons, hg, if_true]
        rw [lookup_cons_ne w _ hp, lookup_cons_ne w _ hp]
        exact ih
    · have hg' : g (k, w).1 = false := by simpa using hg
      simp only [List.filter_cons, hg', Bool.false_eq_true, if_false]
      by_cases hp : p = k
      · subst hp
        rw [ih, if_neg (by simpa using hg), if_neg (by simpa using hg)]
      · rw [ih, lookup_cons_ne w _ hp]

theorem lookup_mem_keys
    {l : List (FsPath × FileData)} {p : FsPath} {v : FileData} (h : l.lookup p = some v) :
    p ∈ l.map Prod.fst := by
  induction l with
  | nil => simp at h
  | cons e t ih =>
    rcases e with ⟨k, w⟩
    by_cases hp : p = k
    · subst hp
      simp only [List.map_cons]
      exact List.mem_cons_self _ _
    · rw [lookup_cons_ne w _ hp] at h
      simp only [List.map_cons]
      exact List.mem_cons_of_mem _ (ih h)

theorem lookup_isSome_mem_keys
    {l : List (FsPath × FileData)} {p : FsPath} (h : (l.lookup p).isSome) :
    p ∈ l.map Prod.fst := by
  rcases Option.isSome_iff_exists.mp h with ⟨v, hv⟩
  exact lookup_mem_keys hv

theorem mem_lookup_of_nodup
    {l : List (FsPath × FileData)} {p : FsPath} {v : FileData}
    (hnd : (l.map Prod.fst).Nodup) (h : (p, v) ∈ l) : l.lookup p = some v := by
  induction l with
  | nil => simp at h
  | cons e t ih =>
    rcases e with ⟨k, w⟩
    rw [List.map_cons] at hnd
    have hnd1 := List.nodup_cons.mp hnd
    rcases List.mem_cons.mp h with h1 | h1
    · cases h1
      exact lookup_cons_eq _ _ _
    · have hpk : p ≠ k := by
        intro hpk
        apply hnd1.1
        rw [← hpk]
        exact List.mem_map.mpr ⟨(p, v), h1, rfl⟩
      rw [lookup_cons_ne w _ hpk]
      exact ih hnd1.2 h1

theorem mem_of_lookup_eq_some
    {l : List (FsPath × FileData)} {p : FsPath} {v : FileData}
    (h : l.lookup p = some v) : (p, v) ∈ l := by
  induction l with
  | nil => simp at h
  | cons e t ih =>
    rcases e with ⟨k, w⟩
    by_cases hp : p = k
    · subst hp
      rw [lookup_cons_eq] at h
      cases h
      simp
    · rw [lookup_cons_ne w _ hp] at h
      simp [ih h]

/-! ## Decimal digits: `digitsVal` parses back what `natDigits`/`pad2` render -/

def digitVal (c : Char) : Nat := c.toNat - 48

def digitsVal (cs : List Char) : Nat := cs.foldl (fun a c => 10 * a + digitVal c) 0

theorem digitsVal_append_singleton (l : List Char) (c : Char) :
    digitsVal (l ++ [c]) = 10 * digitsVal l + digitVal c := by
  simp [digitsVal, List.foldl_append]

theorem digitVal_digitChar {d : Nat} (h : d < 10) : digitVal (digitChar d) = d := by
  interval_cases d <;> decide

theorem digitsVal_natDigitsAux {fuel n : Nat} (h : n ≤ fuel) :
    digitsVal (natDigitsAux (fuel + 1) n) = n := by
  induction fuel generalizing n with
  | zero =>
    interval_cases n
    decide
  | succ fuel ih =>
    by_cases h10 : n < 10
    · simp [natDigitsAux, h10, digitsVal, digitVal_digitChar h10]
    · have hrec : natDigitsAux (fuel + 1 + 1) n
          = natDigitsAux (fuel + 1) (n / 10) ++ [digitChar (n % 10)] := by
        simp [natDigitsAux, h10]
      rw [hrec, digitsVal_append_singleton]
      have hd : n / 10 ≤ fuel := by
        have : n / 10 < n := Nat.div_lt_self (by omega) (by omega)
        omega
      rw [ih hd, digitVal_digitChar (Nat.mod_lt n (by omega))]
      omega

theorem digitsVal_natDigits (n : Nat) : digitsVal (natDigits n) = n :=
  digitsVal_natDigitsAux (Nat.le_refl n)

theorem digitsVal_cons_zero (l : List Char) : digitsVal ('0' :: l) = digitsVal l := by
  have h : 10 * 0 + digitVal '0' = 0 := by decide
  simp only [digitsVal, List.foldl_cons, h]

theorem digitsVal_pad2 (n : Nat) : digitsVal (pad2 n).data = n := by
  by_cases h : n < 10
  · simp only [pad2, h, if_true]
    rw [digitsVal_cons_zero, digitsVal_natDigits]
  · simp only [pad2, h, if_false]
    exact digitsVal_natDigits n

theorem digitsVal_natRepr (n : Nat) : digitsVal (natRepr n).data = n :=
  digitsVal_natDigits n

/-! ## Injectivity of the candidate streams -/

theorem stdStream_injective (target_dir : FsPath) (pfx date_str sfx : String) :
    Function.Injective (stdStream target_dir pfx date_str sfx) := by
  intro i j h
  unfold stdStream at h
  have h1 := List.append_cancel_left h
  have h2 : pfx ++ "_" ++ date_str ++ "_" ++ pad2 (i + 1) ++ sfx
      = pfx ++ "_" ++ date_str ++ "_" ++ pad2 (j + 1) ++ sfx := by
    simpa using h1
  have h3 : (pfx ++ "_" ++ date_str ++ "_").data ++ ((pad2 (i + 1)).data ++ sfx.data)
      = (pfx ++ "_" ++ date_str ++ "_").data ++ ((pad2 (j + 1)).data ++ sfx.data) := by
    have := congrArg String.data h2
    simpa [String.data_append, List.append_assoc] using this
  have h4 := List.append_cancel_left h3
  have h5 : (pad2 (i + 1)).data = (pad2 (j + 1)).data :=
    List.append_cancel_right h4
  have h6 := congrArg digitsVal h5
  rw [digitsVal_pad2, digitsVal_pad2] at h6
  omega

theorem dupStream_injective (duplicate_dir : FsPath) (fname : String) :
    Function.Injective (dupStream duplicate_dir fname) := by
  intro i j h
  match i, j with
  | 0, 0 => rfl
  | 0, j + 1 =>
    exfalso
    simp only [dupStream] at h
    have h1 := List.append_cancel_left h
    have h2 : fname = "Duplicate_" ++ natRepr (j + 1) ++ "_" ++ fname := by
      simpa using h1
    have h3 := congrArg (fun s : String => s.data.length) h2
    simp only [String.data_append, List.length_append, List.length_cons,
      List.length_nil] at h3
    omega
  | i + 1, 0 =>
    exfalso
    simp only [dupStream] at h
    have h1 := List.append_cancel_left h
    have h2 : "Duplicate_" ++ natRepr (i + 1) ++ "_" ++ fname = fname := by
      simpa using h1
    have h3 := congrArg (fun s : String => s.data.length) h2
    simp only [String.data_append, List.length_append, List.length_cons,
      List.length_nil] at h3
    omega
  | i + 1, j + 1 =>
    simp only [dupStream] at h
    have h1 := List.append_cancel_left h
    have h2 : "Duplicate_" ++ natRepr (i + 1) ++ "_" ++ fname
        = "Duplicate_" ++ natRepr (j + 1) ++ "_" ++ fname := by simpa using h1
    have h3 : ("Duplicate_").data ++ ((natRepr (i + 1)).data ++ ("_".data ++ fname.data))
        = ("Duplicate_").data ++ ((natRepr (j + 1)).data ++ ("_".data ++ fname.data)) := by
      have := congrArg String.data h2
      simpa [String.data_append, List.append_assoc] using this
    have h4 := List.append_cancel_left h3
    have h5 : (natRepr (i + 1)).data ++ ("_".data ++ fname.data)
        = (natRepr (j + 1)).data ++ ("_".data ++ fname.data) := h4
    have h6 : (natRepr (i + 1)).data = (natRepr (j + 1)).data :=
      List.append_cancel_right h5
    have h7 := congrArg digitsVal h6
    rw [digitsVal_natRepr, digitsVal_natRepr] at h7
    omega

/-! ## The search loop -/

theorem searchFree_spec (occ : FsPath → Bool) (σ : Nat → FsPath) (k fuel : Nat)
    (h : ∃ j, k ≤ j ∧ j ≤ k + fuel ∧ occ (σ j) = false) :
    occ (searchFree occ σ k fuel) = false := by
  induction fuel generalizing k with
  | zero =>
    rcases h with ⟨j, hk, hj, hocc⟩
    have : j = k := by omega
    subst this
    simpa [searchFree] using hocc
  | succ fuel ih =>
    by_cases hk : occ (σ k) = true
    · rcases h with ⟨j, hkj, hj, hocc⟩
      have hjne : j ≠ k := by intro e; rw [e] at hocc; rw [hk] at hocc; cases hocc
      simp only [searchFree, hk, if_true]
      exact ih (k + 1) ⟨j, by omega, by omega, hocc⟩
    · have hk' : occ (σ k) = false := by
        cases hb : occ (σ k)
        · rfl
        · exact absurd hb hk
      simp [searchFree, hk']

theorem searchFree_mem (occ : FsPath → Bool) (σ : Nat → FsPath) (k fuel : Nat) :
    ∃ j, searchFree occ σ k fuel = σ j := by
  induction fuel generalizing k with
  | zero => exact ⟨k, rfl⟩
  | succ fuel ih =>
    by_cases hk : occ (σ k) = true
    · simpa [searchFree, hk] using ih (k + 1)
    · have hk' : occ (σ k) = false := by
        cases hb : occ (σ k)
        · rfl
        · exact absurd hb hk
      exact ⟨k, by simp [searchFree, hk']⟩

theorem exists_unoccupied (σ : Nat → FsPath) (L : List FsPath)
    (hinj : Function.Injective σ) : ∃ k, k ≤ L.length ∧ σ k ∉ L := by
  by_contra hcon
  push_neg at hcon
  have hsub : (Finset.range (L.length + 1)).image σ ⊆ L.toFinset := by
    intro x hx
    rcases Finset.mem_image.mp hx with ⟨k, hk, rfl⟩
    have hk2 : k ≤ L.length := Nat.lt_succ_iff.mp (Finset.mem_range.mp hk)
    exact List.mem_toFinset.mpr (hcon k hk2)
  have hcard : L.length + 1 ≤ L.toFinset.card := by
    have := Finset.card_le_card hsub
    rwa [Finset.card_image_of_injective _ hinj, Finset.card_range] at this
  have := L.toFinset_card_le
  omega

/-- The list of all names that can make `occupiedB` true. -/
def occList (st : OrganizerState) (fs : FS) : List FsPath :=
  fs.files.map Prod.fst ++ fs.dirs ++ st.simulated_files

theorem occupiedB_mem_occList {eng : Engine} {st : OrganizerState} {fs : FS} {p : FsPath}
    (h : occupiedB eng st fs p = true) : p ∈ occList st fs := by
  unfold occupiedB FS.existsB at h
  simp only [occList, List.mem_append]
  rcases Bool.or_eq_true_iff.mp h with h1 | h1
  · rcases Bool.or_eq_true_iff.mp h1 with h2 | h2
    · exact Or.inl (Or.inl (lookup_isSome_mem_keys h2))
    · exact Or.inl (Or.inr (by simpa using h2))
  · exact Or.inr (by simpa using (Bool.and_eq_true_iff.mp h1).2)

theorem occList_length (st : OrganizerState) (fs : FS) :
    (occList st fs).length + 1 = searchFuel st fs := by
  simp only [occList, searchFuel, List.length_append, List.length_map]

/-- The destination chosen by either naming loop of `process_file` is
unoccupied. -/
theorem searchFree_unoccupied (eng : Engine) (st : OrganizerState) (fs : FS)
    (σ : Nat → FsPath) (hinj : Function.Injective σ) :
    occupiedB eng st fs (searchFree (occupiedB eng st fs) σ 0 (searchFuel st fs)) = false := by
  rcases exists_unoccupied σ (occList st fs) hinj with ⟨k, hk, hmem⟩
  apply searchFree_spec
  refine ⟨k, Nat.zero_le k, ?_, ?_⟩
  · have := occList_length st fs
    omega
  · cases hb : occupiedB eng st fs (σ k)
    · rfl
    · exact absurd (occupiedB_mem_occList hb) hmem

/-! ## Helper lemmas about lookups in the rule tables -/

theorem find?_append_first {α : Type} (l1 l2 : List α) (p : α → Bool) (x : α)
    (h1 : ∀ y ∈ l1, p y = false) (h2 : p x = true) :
    (l1 ++ x :: l2).find? p = some x := by
  induction l1 with
  | nil =>
    simpa using List.find?_cons_of_pos l2 h2
  | cons a as ih =>
    have ha : p a = false := h1 a (List.mem_cons_self a as)
    rw [List.cons_append, List.find?_cons_of_neg _ (by simp [ha])]
    exact ih (fun y hy => h1 y (List.mem_cons_of_mem a hy))

theorem tableLookup_isSome_of_any {tbl : List (String × List String)} {ext : String}
    (h : tbl.any (fun e => e.2.contains ext) = true) :
    ∃ cat, tableLookup tbl ext = some cat := by
  rcases List.any_eq_true.mp h with ⟨e, hmem, hpe⟩
  have hfind : (tbl.find? (fun e => e.2.contains ext)).isSome := by
    rw [List.find?_isSome]
    exact ⟨e, hmem, hpe⟩
  rcases Option.isSome_iff_exists.mp hfind with ⟨w, hw⟩
  refine ⟨w.1, ?_⟩
  unfold tableLookup
  rw [hw]
  rfl

/-- The thirteen fallback-group extensions, enumerated. -/
theorem fallback_ext_cases {ext : String}
    (h : fallback_groups.any (fun e => e.2.contains ext) = true) :
    ext ∈ [".ipynb", ".ppt", ".pptx", ".key", ".odp", ".doc", ".docx", ".odt",
           ".rtf", ".txt", ".xls", ".xlsx", ".csv"] := by
  rcases List.any_eq_true.mp h with ⟨e, hmem, hpe⟩
  have hx := List.mem_of_elem_eq_true hpe
  fin_cases hmem <;> fin_cases hx <;> simp

/-- No fallback-group extension appears in the media table. -/
theorem fallback_media_disjoint {ext : String}
    (h : fallback_groups.any (fun e => e.2.contains ext) = true) :
    tableLookup media_exts ext = none := by
  have := fallback_ext_cases h
  fin_cases this <;> decide

/-! # Claim theorems -/

/-- A real-mode engine over source directory `["s"]`, shared by the concrete
examples below. -/
def engReal : Engine := ⟨["s"], false⟩

/-- A dry-run engine over source directory `["s"]`. -/
def engDry : Engine := ⟨["s"], true⟩

/-- A concrete date-format oracle. -/
def fmtEx : Nat → String := fun _ => "2024-01-01"

/-- C10: for every path whose final name component begins with a dot,
`process_file` is a complete no-op: it returns the state unchanged (no
classification, folder creation, move, ledger write, or change to the
simulated destination set) and reports no destination. -/
theorem C10_hidden_files_noop (eng : Engine) (fmtDate : Nat → String) (now : Nat)
    (st : OrganizerState) (p : FsPath)
    (hdot : firstMatches ".".data (pathName p).data = true) :
    process_file eng fmtDate now st p = some (st, none) := by
  unfold process_file
  rw [hdot, Bool.or_true]
  simp

/-- C10 witness: the ledger file `.organizer_history.json` lying in the
scanned directory is itself skipped. -/
theorem C10_hidden_files_noop_witness :
    firstMatches ".".data (pathName ["s", ".organizer_history.json"]).data = true
    ∧ process_file engReal fmtEx 0
        ⟨⟨[(["s", ".organizer_history.json"], ⟨some [1], 0⟩)], [["s"]]⟩,
          LedgerFile.absent, []⟩ ["s", ".organizer_history.json"]
      = some (⟨⟨[(["s", ".organizer_history.json"], ⟨some [1], 0⟩)], [["s"]]⟩,
          LedgerFile.absent, []⟩, none) :=
  ⟨by decide, C10_hidden_files_noop _ _ _ _ _ (by decide)⟩

/-- C3 (against the claim): two files that cannot be read both hash to the
empty-string sentinel, and `process_file` *does* flag them as duplicates of
each other — the second unreadable file is quarantined into `Duplicates`
although its (unreadable) content was never compared. -/
theorem C3_unreadable_files_flagged_duplicate :
    _calculate_hash ⟨[(["s", "Misc_Documents", "old.txt"], ⟨none, 0⟩),
        (["s", "y.txt"], ⟨none, 4⟩)], [["s"], ["s", "Misc_Documents"]]⟩
        ["s", "y.txt"] = HashV.sentinel
    ∧ _calculate_hash ⟨[(["s", "Misc_Documents", "old.txt"], ⟨none, 0⟩),
        (["s", "y.txt"], ⟨none, 4⟩)], [["s"], ["s", "Misc_Documents"]]⟩
        ["s", "Misc_Documents", "old.txt"] = HashV.sentinel
    ∧ (process_file engReal fmtEx 7
        ⟨⟨[(["s", "Misc_Documents", "old.txt"], ⟨none, 0⟩),
           (["s", "y.txt"], ⟨none, 4⟩)], [["s"], ["s", "Misc_Documents"]]⟩,
          LedgerFile.absent, []⟩ ["s", "y.txt"]).map (fun r => r.2)
      = some (some ["s", "Duplicates", "y.txt"]) := by
  decide

/-- C6 (against the claim): `undo_last_operation` does *not* tolerate an
unparsable ledger — `json.load` raises and the operation fails. -/
theorem C6_undo_raises_on_corrupt_ledger :
    undo_last_operation engReal
      ⟨⟨[(["s", "a.txt"], ⟨some [1], 0⟩)], [["s"]]⟩, LedgerFile.corrupt, []⟩ = none := by
  decide

/-- C6 amended: only the append path (`_log_move`) tolerates a corrupt ledger
file, treating it as empty history (and, in a real run, overwriting it with
the single new record); `undo_last_operation` instead propagates the parse
failure. -/
theorem C6_ledger_tolerance_amended (dry : Bool) (src dst : FsPath) (now : Nat)
    (eng : Engine) (st : OrganizerState) (hst : st.ledger = LedgerFile.corrupt) :
    _log_move dry LedgerFile.corrupt src dst now
        = (if dry then LedgerFile.corrupt else LedgerFile.valid [⟨src, dst, now⟩])
    ∧ undo_last_operation eng st = none := by
  constructor
  · cases dry <;> simp [_log_move]
  · unfold undo_last_operation
    rw [hst]

/-- C6 amended witness. -/
theorem C6_ledger_tolerance_amended_witness :
    (⟨⟨[], [["s"]]⟩, LedgerFile.corrupt, []⟩ : OrganizerState).ledger = LedgerFile.corrupt
    ∧ _log_move false LedgerFile.corrupt ["s", "a.txt"] ["s", "D", "a.txt"] 3
        = (if false then LedgerFile.corrupt
           else LedgerFile.valid [⟨["s", "a.txt"], ["s", "D", "a.txt"], 3⟩])
    ∧ undo_last_operation engReal ⟨⟨[], [["s"]]⟩, LedgerFile.corrupt, []⟩ = none :=
  ⟨rfl,
    C6_ledger_tolerance_amended false ["s", "a.txt"] ["s", "D", "a.txt"] 3 engReal
      ⟨⟨[], [["s"]]⟩, LedgerFile.corrupt, []⟩ rfl⟩

/-- C5 (against the claim): in the keyword tier the keyword is matched against
the *full* lowercased filename, so a keyword occurring only inside the
extension does cause a keyword-tier match: `a.cv` has extension `.cv` (not a
media extension), the keyword `cv` does not occur in the stem `a`, and yet the
file classifies as `Resumes`. -/
theorem C5_keyword_in_extension_matches :
    suffixOf "a.cv" = ".cv"
    ∧ tableLookup media_exts (strLower (suffixOf "a.cv")) = none
    ∧ isSubstring "cv".data (strLower "a").data = false
    ∧ _get_category ["s", "a.cv"] = "Resumes" := by
  decide

/-- C5 amended: a keyword is matched as a case-insensitive substring of the
full filename *including* its extension: whenever the extension is not a
media extension and the keyword rule table has a first match against the full
lowercased name, that match decides the category — in particular a keyword
occurring only inside the extension does cause a keyword-tier match
(`a.cv` → `Resumes`). -/
theorem C5_keyword_full_name_amended (p : FsPath) (cat : String)
    (hext : tableLookup media_exts (strLower (suffixOf (pathName p))) = none)
    (hfirst : keywordLookup (strLower (pathName p)) = some cat) :
    _get_category p = cat ∧ _get_category ["s", "a.cv"] = "Resumes" := by
  constructor
  · simp only [_get_category]
    rw [hext, hfirst]
  · decide

/-- C5 amended witness. -/
theorem C5_keyword_full_name_amended_witness :
    tableLookup media_exts (strLower (suffixOf (pathName ["s", "a.cv"]))) = none
    ∧ keywordLookup (strLower (pathName ["s", "a.cv"])) = some "Resumes"
    ∧ _get_category ["s", "a.cv"] = "Resumes" ∧ _get_category ["s", "a.cv"] = "Resumes" :=
  ⟨by decide, by decide,
    C5_keyword_full_name_amended ["s", "a.cv"] "Resumes" (by decide) (by decide)⟩

/-- C4 (against the claim): for an extension listed in the fallback-group
table the category does *not* depend only on the extension — `resume.txt` and
`a.txt` share the fallback extension `.txt` yet classify differently, because
the keyword tier runs before the fallback-group tier. -/
theorem C4_fallback_extension_counterexample :
    suffixOf "resume.txt" = ".txt"
    ∧ suffixOf "a.txt" = ".txt"
    ∧ fallback_groups.any (fun e => e.2.contains ".txt") = true
    ∧ _get_category ["s", "resume.txt"] = "Resumes"
    ∧ _get_category ["s", "a.txt"] = "Misc_Documents" := by
  decide

/-- C4 amended: for media-table extensions the category depends only on the
extension; for fallback-group extensions it does so only for filenames that
match no keyword rule (the keyword tier takes precedence over the
fallback-group tier). -/
theorem C4_extension_determinism_amended :
    (∀ p1 p2 : FsPath,
      strLower (suffixOf (pathName p1)) = strLower (suffixOf (pathName p2)) →
      media_exts.any (fun e => e.2.contains (strLower (suffixOf (pathName p1)))) = true →
      _get_category p1 = _get_category p2)
    ∧ (∀ p1 p2 : FsPath,
      strLower (suffixOf (pathName p1)) = strLower (suffixOf (pathName p2)) →
      fallback_groups.any
        (fun e => e.2.contains (strLower (suffixOf (pathName p1)))) = true →
      keywordLookup (strLower (pathName p1)) = none →
      keywordLookup (strLower (pathName p2)) = none →
      _get_category p1 = _get_category p2) := by
  constructor
  · intro p1 p2 hsame hmedia
    rcases tableLookup_isSome_of_any hmedia with ⟨cat, hcat⟩
    simp only [_get_category]
    rw [← hsame, hcat]
  · intro p1 p2 hsame hfb hk1 hk2
    have hmedia : tableLookup media_exts (strLower (suffixOf (pathName p1))) = none :=
      fallback_media_disjoint hfb
    rcases tableLookup_isSome_of_any hfb with ⟨g, hg⟩
    simp only [_get_category]
    rw [← hsame, hmedia, hk1, hk2, hg]

/-- C4 amended witness: `photo.jpg` and `anything_at_all.jpg` classify alike,
and `a.txt`, `b.txt` (no keywords) classify alike. -/
theorem C4_extension_determinism_amended_witness :
    _get_category ["s", "photo.jpg"] = _get_category ["s", "anything_at_all.jpg"]
    ∧ _get_category ["s", "a.txt"] = _get_category ["s", "b.txt"] :=
  ⟨C4_extension_determinism_amended.1 ["s", "photo.jpg"] ["s", "anything_at_all.jpg"]
      (by decide) (by decide),
    C4_extension_determinism_amended.2 ["s", "a.txt"] ["s", "b.txt"]
      (by decide) (by decide) (by decide) (by decide)⟩

/-- C9: when the extension is not a media extension, the keyword tier returns
the category of the *first* matching rule in the construction order of the
rule table — which is `Resumes, Invoices, Transcripts, Contracts, Tax_Docs`. -/
theorem C9_keyword_priority_order (p : FsPath) (l1 l2 : List (String × List String))
    (cat : String) (ks : List String)
    (hsplit : rules = l1 ++ (cat, ks) :: l2)
    (hext : tableLookup media_exts (strLower (suffixOf (pathName p))) = none)
    (hmatch : ks.any (fun k => isSubstring k.data (strLower (pathName p)).data) = true)
    (hbefore : ∀ e ∈ l1,
      e.2.any (fun k => isSubstring k.data (strLower (pathName p)).data) = false) :
    _get_category p = cat
    ∧ rules.map Prod.fst = ["Resumes", "Invoices", "Transcripts", "Contracts", "Tax_Docs"] := by
  refine ⟨?_, by decide⟩
  have hkw : keywordLookup (strLower (pathName p)) = some cat := by
    unfold keywordLookup
    rw [hsplit, find?_append_first l1 l2 _ (cat, ks) hbefore hmatch]
    rfl
  simp only [_get_category]
  rw [hext, hkw]

/-- C9 witness: a name containing both `invoice` and `tax` classifies as
`Invoices`. -/
theorem C9_keyword_priority_order_witness :
    rules = [("Resumes", ["resume", "cv", "bio", "profile", "curriculum"])]
        ++ ("Invoices", ["invoice", "bill", "receipt", "payment"])
        :: [("Transcripts", ["transcript", "marksheet", "grade", "score"]),
            ("Contracts", ["agreement", "contract", "offer", "nda"]),
            ("Tax_Docs", ["w2", "1099", "tax", "return"])]
    ∧ isSubstring "invoice".data (strLower (pathName ["s", "invoice_tax_2023.pdf"])).data = true
    ∧ isSubstring "tax".data (strLower (pathName ["s", "invoice_tax_2023.pdf"])).data = true
    ∧ _get_category ["s", "invoice_tax_2023.pdf"] = "Invoices" :=
  ⟨by decide, by decide, by decide,
    (C9_keyword_priority_order ["s", "invoice_tax_2023.pdf"]
      [("Resumes", ["resume", "cv", "bio", "profile", "curriculum"])]
      [("Transcripts", ["transcript", "marksheet", "grade", "score"]),
       ("Contracts", ["agreement", "contract", "offer", "nda"]),
       ("Tax_Docs", ["w2", "1099", "tax", "return"])]
      "Invoices" ["invoice", "bill", "receipt", "payment"]
      (by decide) (by decide) (by decide) (by decide)).1⟩

/-! ## Characterizations of `mkdirExistOk`, `finishMove` and `move` -/

theorem mkdirExistOk_spec {fs fs2 : FS} {d : FsPath} (h : fs.mkdirExistOk d = some fs2) :
    fs2.files = fs.files ∧ d ∈ fs2.dirs ∧ (∀ x ∈ fs.dirs, x ∈ fs2.dirs)
    ∧ (∀ x ∈ fs2.dirs, x ∈ fs.dirs ∨ x = d)
    ∧ (fs2.dirs = fs.dirs
        ∨ (fs2.dirs = d :: fs.dirs ∧ d ∉ fs.dirs ∧ fs.files.lookup d = none)) := by
  unfold FS.mkdirExistOk at h
  split at h
  case isTrue hmem =>
    cases h
    exact ⟨rfl, by simpa using hmem, fun x hx => hx, fun x hx => Or.inl hx, Or.inl rfl⟩
  case isFalse hmem =>
    split at h
    case isTrue hf => cases h
    case isFalse hf =>
      split at h
      case isTrue hpar =>
        cases h
        refine ⟨rfl, List.mem_cons_self _ _, fun x hx => List.mem_cons_of_mem _ hx, ?_, ?_⟩
        · intro x hx
          rcases List.mem_cons.mp hx with h1 | h1
          · exact Or.inr h1
          · exact Or.inl h1
        · refine Or.inr ⟨rfl, by simpa using hmem, ?_⟩
          cases hl : fs.files.lookup d
          · rfl
          · exact absurd (by simp [hl]) hf
      case isFalse hpar => cases h

theorem finishMove_dry {eng : Engine} (hdry : eng.dry_run = true)
    (now : Nat) (st : OrganizerState) (fs : FS) (p dest : FsPath) :
    finishMove eng now st fs p dest
      = some ({ st with fs := fs, simulated_files := dest :: st.simulated_files },
          some dest) := by
  unfold finishMove
  rw [hdry]
  simp

theorem finishMove_real {eng : Engine} (hdry : eng.dry_run = false)
    (now : Nat) (st : OrganizerState) (fs : FS) (p dest : FsPath) :
    finishMove eng now st fs p dest
      = (fs.move p dest).map (fun fs2 =>
          ({ st with fs := fs2, ledger := _log_move false st.ledger p dest now },
            some dest)) := by
  unfold finishMove
  rw [hdry]
  cases fs.move p dest <;> simp

theorem move_eq {fs : FS} {src dst : FsPath} {fd : FileData}
    (hsrc : fs.files.lookup src = some fd)
    (hdst : fs.dirs.contains dst = false)
    (hpar : fs.dirs.contains (parentOf dst) = true) :
    fs.move src dst = some { fs with
      files := (dst, fd) :: fs.files.filter (fun e => !(e.1 == src) && !(e.1 == dst)) } := by
  unfold FS.move
  rw [hsrc]
  simp only [hdst, Bool.false_eq_true, if_false, hpar, if_true]

theorem lookup_move_files (fs : FS) (src dst : FsPath) (fd : FileData) (q : FsPath) :
    ((dst, fd) :: fs.files.filter (fun e => !(e.1 == src) && !(e.1 == dst))).lookup q
      = if q = dst then some fd else if q = src then none else fs.files.lookup q := by
  by_cases hqd : q = dst
  · subst hqd
    simp [lookup_cons_eq]
  · rw [lookup_cons_ne _ _ hqd,
      lookup_filter_key fs.files (fun x => !(x == src) && !(x == dst)) q]
    by_cases hqs : q = src
    · subst hqs
      simp [hqd]
    · simp [hqs, hqd]

/-- C2 (against the claim): with `dry_run=true`, `process_file` *does* mutate
the filesystem — it creates the category directory (`target_dir.mkdir` runs
before any dry-run check). -/
theorem C2_dry_run_creates_directory :
    (process_file engDry fmtEx 0
        ⟨⟨[(["s", "a.txt"], ⟨some [1], 5⟩)], [["s"]]⟩, LedgerFile.absent, []⟩
        ["s", "a.txt"]).map (fun r => r.1.fs.dirs.contains ["s", "Misc_Documents"])
      = some true
    ∧ (⟨⟨[(["s", "a.txt"], ⟨some [1], 5⟩)], [["s"]]⟩, LedgerFile.absent,
        ([] : List FsPath)⟩ : OrganizerState).fs.dirs.contains ["s", "Misc_Documents"]
      = false := by
  decide

/-- C2 amended: in a dry run `process_file` performs no file move and no
ledger write — the file map and the ledger are untouched — but it may create
the category directory (and the `Duplicates` directory); besides directory
creation, the only state it changes is the simulated destination set, which
records the chosen destination. -/
theorem C2_dry_run_frame_amended (eng : Engine) (fmtDate : Nat → String) (now : Nat)
    (st st2 : OrganizerState) (p : FsPath) (d : Option FsPath)
    (hdry : eng.dry_run = true)
    (hok : process_file eng fmtDate now st p = some (st2, d)) :
    st2.fs.files = st.fs.files
    ∧ st2.ledger = st.ledger
    ∧ (∀ x ∈ st.fs.dirs, x ∈ st2.fs.dirs)
    ∧ (∀ x ∈ st2.fs.dirs, x ∈ st.fs.dirs ∨ x = eng.source ++ [_get_category p]
        ∨ x = eng.source ++ ["Duplicates"])
    ∧ (st2.simulated_files = st.simulated_files
        ∨ ∃ dd, d = some dd ∧ st2.simulated_files = dd :: st.simulated_files) := by
  simp only [process_file] at hok
  split at hok
  · cases hok
    exact ⟨rfl, rfl, fun x hx => hx, fun x hx => Or.inl hx, Or.inl rfl⟩
  · split at hok
    case h_1 => cases hok
    case h_2 fs1 hmk1 =>
      rcases mkdirExistOk_spec hmk1 with ⟨hf1, _, hsub1, hnew1, _⟩
      split at hok
      · -- duplicate branch
        split at hok
        case h_1 => cases hok
        case h_2 fs2 hmk2 =>
          rcases mkdirExistOk_spec hmk2 with ⟨hf2, _, hsub2, hnew2, _⟩
          rw [finishMove_dry hdry] at hok
          cases hok
          refine ⟨by rw [hf2, hf1], rfl, ?_, ?_, Or.inr ⟨_, rfl, rfl⟩⟩
          · intro x hx
            exact hsub2 x (hsub1 x hx)
          · intro x hx
            rcases hnew2 x hx with h1 | h1
            · rcases hnew1 x h1 with h2 | h2
              · exact Or.inl h2
              · exact Or.inr (Or.inl h2)
            · exact Or.inr (Or.inr h1)
      · -- standard branch
        split at hok
        case h_1 => cases hok
        case h_2 fd hfd =>
          rw [finishMove_dry hdry] at hok
          cases hok
          refine ⟨by rw [hf1], rfl, fun x hx => hsub1 x hx, ?_, Or.inr ⟨_, rfl, rfl⟩⟩
          intro x hx
          rcases hnew1 x hx with h1 | h1
          · exact Or.inl h1
          · exact Or.inr (Or.inl h1)

/-- The concrete dry-run example for C2: the state before, the destination
reported, and the state after. -/
def c2St : OrganizerState :=
  ⟨⟨[(["s", "a.txt"], ⟨some [1], 5⟩)], [["s"]]⟩, LedgerFile.absent, []⟩

def c2Dest : FsPath := ["s", "Misc_Documents", "Misc_Document_2024-01-01_01.txt"]

def c2St2 : OrganizerState :=
  ⟨⟨[(["s", "a.txt"], ⟨some [1], 5⟩)], [["s", "Misc_Documents"], ["s"]]⟩,
    LedgerFile.absent, [c2Dest]⟩

/-- C2 amended witness. -/
theorem C2_dry_run_frame_amended_witness :
    engDry.dry_run = true
    ∧ process_file engDry fmtEx 0 c2St ["s", "a.txt"] = some (c2St2, some c2Dest)
    ∧ c2St2.fs.files = c2St.fs.files ∧ c2St2.ledger = c2St.ledger := by
  refine ⟨rfl, by decide, ?_, ?_⟩
  · exact (C2_dry_run_frame_amended engDry fmtEx 0 c2St c2St2 ["s", "a.txt"]
      (some c2Dest) rfl (by decide)).1
  · exact (C2_dry_run_frame_amended engDry fmtEx 0 c2St c2St2 ["s", "a.txt"]
      (some c2Dest) rfl (by decide)).2.1

/-! ## C7: destination uniqueness within one run -/

theorem contains_iff_mem {l : List FsPath} {x : FsPath} : l.contains x = true ↔ x ∈ l := by
  simp [List.contains]

theorem stdStream_length (t : FsPath) (pfx ds sfx : String) (k : Nat) :
    (stdStream t pfx ds sfx k).length = t.length + 1 := by
  simp [stdStream]

theorem dupStream_length (dd : FsPath) (fname : String) (k : Nat) :
    (dupStream dd fname k).length = dd.length + 1 := by
  cases k <;> simp [dupStream]

/-- A destination name is occupied from the point of view of the whole engine
state: a real file, a real directory, or (in a dry run) a simulated claim. -/
def occST (eng : Engine) (st : OrganizerState) (x : FsPath) : Prop :=
  (st.fs.files.lookup x).isSome = true ∨ x ∈ st.fs.dirs
    ∨ (eng.dry_run = true ∧ x ∈ st.simulated_files)

theorem move_some_spec {fs fs3 : FS} {src dst : FsPath}
    (hdst : fs.dirs.contains dst = false)
    (h : fs.move src dst = some fs3) :
    ∃ fd, fs.files.lookup src = some fd
      ∧ fs3.files
          = (dst, fd) :: fs.files.filter (fun e => !(e.1 == src) && !(e.1 == dst))
      ∧ fs3.dirs = fs.dirs := by
  unfold FS.move at h
  split at h
  case h_1 fd hfd =>
    simp only [hdst, Bool.false_eq_true, if_false] at h
    split at h
    case isTrue hpar =>
      cases h
      exact ⟨fd, hfd, rfl, rfl⟩
    case isFalse hpar => cases h
  case h_2 => cases h

/-- What `process_file` guarantees about the destination it chooses: either
the file was skipped and nothing changed, or the reported destination was
previously unoccupied (on disk and, in a dry run, in the simulated set), is
occupied afterwards, and every previously occupied name of destination shape
stays occupied. -/
theorem process_file_dest_spec (eng : Engine) (fmtDate : Nat → String) (now : Nat)
    (st st2 : OrganizerState) (p : FsPath) (d : Option FsPath) (nm : String)
    (hp : p = eng.source ++ [nm])
    (hok : process_file eng fmtDate now st p = some (st2, d)) :
    (d = none ∧ st2 = st)
    ∨ (∃ dest, d = some dest
        ∧ dest.length = eng.source.length + 2
        ∧ ¬ occST eng st dest
        ∧ occST eng st2 dest
        ∧ (∀ x, x.length = eng.source.length + 2 → occST eng st x → occST eng st2 x)) := by
  have hplen : p.length = eng.source.length + 1 := by
    rw [hp]
    simp
  simp only [process_file] at hok
  split at hok
  · cases hok
    exact Or.inl ⟨rfl, rfl⟩
  · split at hok
    case h_1 => cases hok
    case h_2 fs1 hmk1 =>
      rcases mkdirExistOk_spec hmk1 with ⟨hf1, _, hsub1, _, _⟩
      split at hok
      · -- duplicate branch
        split at hok
        case h_1 => cases hok
        case h_2 fs2 hmk2 =>
          rcases mkdirExistOk_spec hmk2 with ⟨hf2, _, hsub2, _, _⟩
          have hfiles2 : fs2.files = st.fs.files := by rw [hf2, hf1]
          have hdirs2 : ∀ x ∈ st.fs.dirs, x ∈ fs2.dirs := fun x hx =>
            hsub2 x (hsub1 x hx)
          have hfree := searchFree_unoccupied eng st fs2 _
            (dupStream_injective (eng.source ++ ["Duplicates"]) (pathName p))
          set dest := searchFree (occupiedB eng st fs2)
            (dupStream (eng.source ++ ["Duplicates"]) (pathName p)) 0
            (searchFuel st fs2) with hdest
          have hlen : dest.length = eng.source.length + 2 := by
            rcases searchFree_mem (occupiedB eng st fs2)
              (dupStream (eng.source ++ ["Duplicates"]) (pathName p)) 0
              (searchFuel st fs2) with ⟨j, hj⟩
            rw [hdest, hj, dupStream_length]
            simp
          have hnotocc : ¬ occST eng st dest := by
            unfold occupiedB FS.existsB at hfree
            rcases Bool.or_eq_false_iff.mp hfree with ⟨hex, hsim⟩
            rcases Bool.or_eq_false_iff.mp hex with ⟨hlk, hdr⟩
            intro hocc
            rcases hocc with h1 | h1 | ⟨h1, h2⟩
            · rw [hfiles2] at hlk
              rw [hlk] at h1
              cases h1
            · have hm : fs2.dirs.contains dest = true := contains_iff_mem.mpr (hdirs2 _ h1)
              rw [hm] at hdr
              cases hdr
            · rw [h1, Bool.true_and] at hsim
              have hm : st.simulated_files.contains dest = true := contains_iff_mem.mpr h2
              rw [hm] at hsim
              cases hsim
          have hdstfree : fs2.dirs.contains dest = false := by
            unfold occupiedB FS.existsB at hfree
            rcases Bool.or_eq_false_iff.mp hfree with ⟨hex, _⟩
            exact (Bool.or_eq_false_iff.mp hex).2
          cases hdry : eng.dry_run with
          | true =>
            rw [finishMove_dry hdry] at hok
            cases hok
            refine Or.inr ⟨dest, rfl, hlen, hnotocc, ?_, ?_⟩
            · exact Or.inr (Or.inr ⟨hdry, List.mem_cons_self _ _⟩)
            · intro x hxlen hx
              rcases hx with h1 | h1 | ⟨h1, h2⟩
              · refine Or.inl ?_
                show (List.lookup x fs2.files).isSome = true
                rw [hfiles2]
                exact h1
              · exact Or.inr (Or.inl (hdirs2 x h1))
              · exact Or.inr (Or.inr ⟨h1, List.mem_cons_of_mem _ h2⟩)
          | false =>
            rw [finishMove_real hdry] at hok
            cases hmv : fs2.move p dest with
            | none =>
              rw [hmv] at hok
              cases hok
            | some fs3 =>
              rw [hmv] at hok
              cases hok
              rcases move_some_spec hdstfree hmv with ⟨fd, hfd, hfl3, hdr3⟩
              refine Or.inr ⟨dest, rfl, hlen, hnotocc, ?_, ?_⟩
              · refine Or.inl ?_
                show ((fs3.files).lookup dest).isSome = true
                rw [hfl3, lookup_move_files]
                simp
              · intro x hxlen hx
                have hxp : x ≠ p := by
                  intro hxe
                  rw [hxe, hplen] at hxlen
                  omega
                have hxd : x ≠ dest := by
                  intro hxe
                  rw [hxe] at hx
                  exact hnotocc hx
                rcases hx with h1 | h1 | ⟨h1, h2⟩
                · refine Or.inl ?_
                  show ((fs3.files).lookup x).isSome = true
                  rw [hfl3, lookup_move_files, if_neg hxd, if_neg hxp, hfiles2]
                  exact h1
                · refine Or.inr (Or.inl ?_)
                  show x ∈ fs3.dirs
                  rw [hdr3]
                  exact hdirs2 x h1
                · rw [hdry] at h1
                  cases h1
      · -- standard branch
        split at hok
        case h_1 => cases hok
        case h_2 fd0 hfd0 =>
          have hfiles1 : fs1.files = st.fs.files := hf1
          have hdirs1 : ∀ x ∈ st.fs.dirs, x ∈ fs1.dirs := hsub1
          have hfree := searchFree_unoccupied eng st fs1 _
            (stdStream_injective (eng.source ++ [_get_category p])
              (categoryPfx (_get_category p)) (fmtDate fd0.ctime)
              (suffixOf (pathName p)))
          set dest := searchFree (occupiedB eng st fs1)
            (stdStream (eng.source ++ [_get_category p])
              (categoryPfx (_get_category p)) (fmtDate fd0.ctime)
              (suffixOf (pathName p))) 0 (searchFuel st fs1) with hdest
          have hlen : dest.length = eng.source.length + 2 := by
            rcases searchFree_mem (occupiedB eng st fs1)
              (stdStream (eng.source ++ [_get_category p])
                (categoryPfx (_get_category p)) (fmtDate fd0.ctime)
                (suffixOf (pathName p))) 0 (searchFuel st fs1) with ⟨j, hj⟩
            rw [hdest, hj, stdStream_length]
            simp
          have hnotocc : ¬ occST eng st dest := by
            unfold occupiedB FS.existsB at hfree
            rcases Bool.or_eq_false_iff.mp hfree with ⟨hex, hsim⟩
            rcases Bool.or_eq_false_iff.mp hex with ⟨hlk, hdr⟩
            intro hocc
            rcases hocc with h1 | h1 | ⟨h1, h2⟩
            · rw [hfiles1] at hlk
              rw [hlk] at h1
              cases h1
            · have hm : fs1.dirs.contains dest = true := contains_iff_mem.mpr (hdirs1 _ h1)
              rw [hm] at hdr
              cases hdr
            · rw [h1, Bool.true_and] at hsim
              have hm : st.simulated_files.contains dest = true := contains_iff_mem.mpr h2
              rw [hm] at hsim
              cases hsim
          have hdstfree : fs1.dirs.contains dest = false := by
            unfold occupiedB FS.existsB at hfree
            rcases Bool.or_eq_false_iff.mp hfree with ⟨hex, _⟩
            exact (Bool.or_eq_false_iff.mp hex).2
          cases hdry : eng.dry_run with
          | true =>
            rw [finishMove_dry hdry] at hok
            cases hok
            refine Or.inr ⟨dest, rfl, hlen, hnotocc, ?_, ?_⟩
            · exact Or.inr (Or.inr ⟨hdry, List.mem_cons_self _ _⟩)
            · intro x hxlen hx
              rcases hx with h1 | h1 | ⟨h1, h2⟩
              · refine Or.inl ?_
                show (List.lookup x fs1.files).isSome = true
                rw [hfiles1]
                exact h1
              · exact Or.inr (Or.inl (hdirs1 x h1))
              · exact Or.inr (Or.inr ⟨h1, List.mem_cons_of_mem _ h2⟩)
          | false =>
            rw [finishMove_real hdry] at hok
            cases hmv : fs1.move p dest with
            | none =>
              rw [hmv] at hok
              cases hok
            | some fs3 =>
              rw [hmv] at hok
              cases hok
              rcases move_some_spec hdstfree hmv with ⟨fd, hfd, hfl3, hdr3⟩
              refine Or.inr ⟨dest, rfl, hlen, hnotocc, ?_, ?_⟩
              · refine Or.inl ?_
                show ((fs3.files).lookup dest).isSome = true
                rw [hfl3, lookup_move_files]
                simp
              · intro x hxlen hx
                have hxp : x ≠ p := by
                  intro hxe
                  rw [hxe, hplen] at hxlen
                  omega
                have hxd : x ≠ dest := by
                  intro hxe
                  rw [hxe] at hx
                  exact hnotocc hx
                rcases hx with h1 | h1 | ⟨h1, h2⟩
                · refine Or.inl ?_
                  show ((fs3.files).lookup x).isSome = true
                  rw [hfl3, lookup_move_files, if_neg hxd, if_neg hxp, hfiles1]
                  exact h1
                · refine Or.inr (Or.inl ?_)
                  show x ∈ fs3.dirs
                  rw [hdr3]
                  exact hdirs1 x h1
                · rw [hdry] at h1
                  cases h1

/-- Run-level aggregation for C7: along any run the already-reported
destinations stay occupied, so every new destination differs from all of
them. -/
theorem runAll_dests_aux (eng : Engine) (fmtDate : Nat → String) (now : Nat)
    (ps : List FsPath) :
    ∀ (st st2 : OrganizerState) (ds ds0 : List FsPath),
    (∀ p ∈ ps, ∃ nm, p = eng.source ++ [nm]) →
    (∀ x ∈ ds0, x.length = eng.source.length + 2 ∧ occST eng st x) →
    runAll eng fmtDate now st ps = some (st2, ds) →
    ds.Nodup ∧ (∀ x ∈ ds, x ∉ ds0)
      ∧ (∀ x ∈ ds0 ++ ds, x.length = eng.source.length + 2 ∧ occST eng st2 x) := by
  induction ps with
  | nil =>
    intro st st2 ds ds0 hps hds0 hrun
    simp only [runAll] at hrun
    cases hrun
    exact ⟨List.nodup_nil, by simp, by simpa using hds0⟩
  | cons p ps ih =>
    intro st st2 ds ds0 hps hds0 hrun
    simp only [runAll] at hrun
    split at hrun
    case h_1 => cases hrun
    case h_2 stm d hpf =>
      split at hrun
      case h_1 => cases hrun
      case h_2 stf ds2 hrest =>
        cases hrun
        rcases hps p (List.mem_cons_self _ _) with ⟨nm, hnm⟩
        rcases process_file_dest_spec eng fmtDate now st stm p d nm hnm hpf with
          ⟨hdn, hst⟩ | ⟨dest, hdd, hdlen, hdnot, hdocc, hmono⟩
        · subst hdn
          subst hst
          have htl : (Option.none : Option FsPath).toList ++ ds2 = ds2 := rfl
          rw [htl]
          exact ih _ _ _ ds0 (fun q hq => hps q (List.mem_cons_of_mem _ hq))
            hds0 hrest
        · subst hdd
          have htl : (Option.some dest).toList ++ ds2 = dest :: ds2 := rfl
          rw [htl]
          have hds0m : ∀ x ∈ ds0 ++ [dest],
              x.length = eng.source.length + 2 ∧ occST eng stm x := by
            intro x hx
            rcases List.mem_append.mp hx with h1 | h1
            · rcases hds0 x h1 with ⟨hl, ho⟩
              exact ⟨hl, hmono x hl ho⟩
            · rcases List.mem_singleton.mp h1 with rfl
              exact ⟨hdlen, hdocc⟩
          rcases ih _ _ _ (ds0 ++ [dest])
            (fun q hq => hps q (List.mem_cons_of_mem _ hq)) hds0m hrest with
            ⟨hnd2, hnotin2, hocc2⟩
          refine ⟨?_, ?_, ?_⟩
          · rw [List.nodup_cons]
            refine ⟨?_, hnd2⟩
            intro hmem
            exact hnotin2 dest hmem (by simp)
          · intro x hx
            rcases List.mem_cons.mp hx with rfl | h1
            · intro hmem
              rcases hds0 x hmem with ⟨_, ho⟩
              exact hdnot ho
            · intro hmem
              exact hnotin2 x h1 (List.mem_append_left _ hmem)
          · intro x hx
            apply hocc2
            rcases List.mem_append.mp hx with h1 | h1
            · exact List.mem_append_left _ (List.mem_append_left _ h1)
            · rcases List.mem_cons.mp h1 with rfl | h2
              · exact List.mem_append_left _ (List.mem_append_right _ (by simp))
              · exact List.mem_append_right _ h2

/-- C7: within a single run (one engine instance), no two `process_file`
calls resolve to the same destination path — in real mode (earlier moves
occupy names on disk) and in simulation mode (the simulated destination set
records claimed names), covering both the standard date-sequence pattern and
the quarantine pattern. -/
theorem C7_destinations_distinct (eng : Engine) (fmtDate : Nat → String) (now : Nat)
    (st st2 : OrganizerState) (ps : List FsPath) (ds : List FsPath)
    (hps : ∀ p ∈ ps, ∃ nm, p = eng.source ++ [nm])
    (hrun : runAll eng fmtDate now st ps = some (st2, ds)) :
    ds.Nodup :=
  (runAll_dests_aux eng fmtDate now ps st st2 ds [] hps (by simp) hrun).1

/-- The concrete final state of the three-file example run used as C7
witness. -/
def c7St2 : OrganizerState :=
  ⟨⟨[(["s", "Misc_Documents", "Misc_Document_2024-01-01_02.txt"], ⟨some [2], 7⟩),
     (["s", "Duplicates", "b.txt"], ⟨some [1], 6⟩),
     (["s", "Misc_Documents", "Misc_Document_2024-01-01_01.txt"], ⟨some [1], 5⟩)],
    [["s", "Duplicates"], ["s", "Misc_Documents"], ["s"]]⟩,
   LedgerFile.valid
     [⟨["s", "a.txt"], ["s", "Misc_Documents", "Misc_Document_2024-01-01_01.txt"], 9⟩,
      ⟨["s", "b.txt"], ["s", "Duplicates", "b.txt"], 9⟩,
      ⟨["s", "c.txt"], ["s", "Misc_Documents", "Misc_Document_2024-01-01_02.txt"], 9⟩],
   []⟩

/-- The destinations the example run reports. -/
def c7Dests : List FsPath :=
  [["s", "Misc_Documents", "Misc_Document_2024-01-01_01.txt"],
   ["s", "Duplicates", "b.txt"],
   ["s", "Misc_Documents", "Misc_Document_2024-01-01_02.txt"]]

/-- C7 witness: a real run over three files — two of which are duplicates of
each other, exercising the quarantine pattern alongside the standard
pattern — reports three pairwise distinct destinations. -/
theorem C7_destinations_distinct_witness :
    (∀ p ∈ [["s", "a.txt"], ["s", "b.txt"], ["s", "c.txt"]],
      ∃ nm, p = engReal.source ++ [nm])
    ∧ runAll engReal fmtEx 9
        ⟨⟨[(["s", "a.txt"], ⟨some [1], 5⟩), (["s", "b.txt"], ⟨some [1], 6⟩),
           (["s", "c.txt"], ⟨some [2], 7⟩)], [["s"]]⟩, LedgerFile.absent, []⟩
        [["s", "a.txt"], ["s", "b.txt"], ["s", "c.txt"]]
      = some (c7St2, c7Dests)
    ∧ c7Dests.Nodup := by
  refine ⟨?_, by decide, ?_⟩
  · intro p hp
    fin_cases hp
    · exact ⟨"a.txt", rfl⟩
    · exact ⟨"b.txt", rfl⟩
    · exact ⟨"c.txt", rfl⟩
  · exact C7_destinations_distinct engReal fmtEx 9
      ⟨⟨[(["s", "a.txt"], ⟨some [1], 5⟩), (["s", "b.txt"], ⟨some [1], 6⟩),
         (["s", "c.txt"], ⟨some [2], 7⟩)], [["s"]]⟩, LedgerFile.absent, []⟩
      c7St2 [["s", "a.txt"], ["s", "b.txt"], ["s", "c.txt"]] c7Dests
      (by intro p hp
          fin_cases hp
          · exact ⟨"a.txt", rfl⟩
          · exact ⟨"b.txt", rfl⟩
          · exact ⟨"c.txt", rfl⟩)
      (by decide)

/-! ## C8: undo tolerates missing destinations and always clears the ledger -/

theorem rmdirIfEmpty_files (fs : FS) (d : FsPath) :
    (fs.rmdirIfEmpty d).files = fs.files := by
  unfold FS.rmdirIfEmpty
  split <;> rfl

theorem rmdirIfEmpty_dirs_subset (fs : FS) (d : FsPath) :
    ∀ x ∈ (fs.rmdirIfEmpty d).dirs, x ∈ fs.dirs := by
  unfold FS.rmdirIfEmpty
  split
  · exact fun x hx => hx
  · intro x hx
    exact (List.mem_filter.mp hx).1

theorem rmdirIfEmpty_dirs_keep {fs : FS} {d x : FsPath} (hx : x ∈ fs.dirs)
    (hne : x ≠ d) : x ∈ (fs.rmdirIfEmpty d).dirs := by
  unfold FS.rmdirIfEmpty
  split
  · exact hx
  · refine List.mem_filter.mpr ⟨hx, ?_⟩
    simp [hne]

theorem parentOf_concat (l : FsPath) (a : String) : parentOf (l ++ [a]) = l :=
  List.dropLast_concat

theorem parentOf_concat2 (l : FsPath) (a b : String) :
    parentOf (l ++ [a, b]) = l ++ [a] := by
  have : l ++ [a, b] = (l ++ [a]) ++ [b] := by simp
  rw [this, parentOf_concat]

theorem foldlM_cons_option {α β : Type} (f : β → α → Option β) (b : β) (a : α)
    (l : List α) :
    List.foldlM f b (a :: l) = (f b a).bind (fun s => List.foldlM f s l) := by
  cases h : f b a <;> simp [List.foldlM_cons, h]

/-- The undo replay over a well-shaped pending ledger: the fold never raises,
warnings are exactly the records whose destination is missing, and every
record with a surviving destination is restored to its source. -/
theorem undo_fold_spec (fs0 : FS) (src0 : FsPath) (P : List MoveRecord) :
    ∀ (fsC : FS) (warns0 : List FsPath),
    (∀ r ∈ P, (∃ nm, r.src = src0 ++ [nm]) ∧ (∃ c n, r.dst = src0 ++ [c, n])) →
    (P.map (fun r => r.src)).Nodup →
    (P.map (fun r => r.dst)).Nodup →
    (∀ r ∈ P, fsC.files.lookup r.src = none) →
    (∀ r ∈ P, fsC.files.lookup r.dst = fs0.files.lookup r.dst) →
    (∀ r ∈ P, r.src ∉ fs0.dirs ∧ r.dst ∉ fs0.dirs) →
    src0 ∈ fsC.dirs →
    (∀ x ∈ fsC.dirs, x ∈ fs0.dirs) →
    ∃ fs2 w2, List.foldlM (fun acc entry => undoStep false acc entry)
        ((fsC, warns0) : FS × List FsPath) P.reverse = some (fs2, warns0 ++ w2)
      ∧ (∀ r ∈ P, (fs0.files.lookup r.dst).isSome →
            fs2.files.lookup r.src = fs0.files.lookup r.dst)
      ∧ (∀ r ∈ P, fs0.files.lookup r.dst = none → r.dst ∈ w2)
      ∧ (∀ q, (∀ r ∈ P, q ≠ r.src ∧ q ≠ r.dst) →
            fs2.files.lookup q = fsC.files.lookup q)
      ∧ (∀ x ∈ fs2.dirs, x ∈ fsC.dirs) ∧ src0 ∈ fs2.dirs := by
  induction P using List.reverseRecOn with
  | nil =>
    intro fsC warns0 _ _ _ _ _ _ hsrc0 hsub
    refine ⟨fsC, [], ?_, ?_, ?_, fun q _ => rfl, fun x hx => hx, hsrc0⟩
    · rw [List.reverse_nil, List.foldlM_nil, List.append_nil]
      rfl
    · intro r hr
      exact absurd hr (List.not_mem_nil r)
    · intro r hr
      exact absurd hr (List.not_mem_nil r)
  | append_singleton P0 r ih =>
    intro fsC warns0 hshape hsrcnd hdstnd hsrcfree hdstpres hnotdirs hsrc0 hsub
    have hrP : r ∈ P0 ++ [r] := List.mem_append_right _ (by simp)
    obtain ⟨⟨nm, hnm⟩, ⟨c, n, hdn⟩⟩ := hshape r hrP
    have hmem0 : ∀ x ∈ P0, x ∈ P0 ++ [r] := fun x hx => List.mem_append_left _ hx
    have hshape0 := fun x hx => hshape x (hmem0 x hx)
    rw [List.map_append] at hsrcnd hdstnd
    have hsrcnd0 := (List.nodup_append.mp hsrcnd).1
    have hdstnd0 := (List.nodup_append.mp hdstnd).1
    have hsrc_ne : ∀ x ∈ P0, x.src ≠ r.src := by
      have hdisj := (List.nodup_append.mp hsrcnd).2.2
      intro x hx he
      exact hdisj (List.mem_map_of_mem _ hx) (by simp [he])
    have hdst_ne : ∀ x ∈ P0, x.dst ≠ r.dst := by
      have hdisj := (List.nodup_append.mp hdstnd).2.2
      intro x hx he
      exact hdisj (List.mem_map_of_mem _ hx) (by simp [he])
    have hlen_ne : ∀ x ∈ P0 ++ [r], ∀ y ∈ P0 ++ [r], x.src ≠ y.dst := by
      intro x hx y hy he
      obtain ⟨⟨nx, hx1⟩, _⟩ := hshape x hx
      obtain ⟨_, ⟨cy, ny, hy2⟩⟩ := hshape y hy
      rw [hx1, hy2] at he
      have hl := congrArg List.length he
      simp only [List.length_append, List.length_cons, List.length_nil] at hl
      omega
    have hrev : (P0 ++ [r]).reverse = r :: P0.reverse := by
      simp
    rw [hrev, foldlM_cons_option]
    cases hlk : fs0.files.lookup r.dst with
    | some fd =>
      -- destination survives: restore it
      have hCd : fsC.files.lookup r.dst = some fd := by
        rw [hdstpres r hrP, hlk]
      have hex : fsC.existsB r.dst = true := by
        unfold FS.existsB
        rw [hCd]
        simp
      have hsrcnotdir : fsC.dirs.contains r.src = false := by
        cases hb : fsC.dirs.contains r.src
        · rfl
        · exact absurd (hsub _ (contains_iff_mem.mp hb)) (hnotdirs r hrP).1
      have hparent : fsC.dirs.contains (parentOf r.src) = true := by
        rw [hnm, parentOf_concat]
        exact contains_iff_mem.mpr hsrc0
      have hmv := move_eq hCd hsrcnotdir hparent
      have hstep : undoStep false (fsC, warns0) r
          = some ((FS.rmdirIfEmpty
              ⟨(r.src, fd) :: fsC.files.filter
                  (fun e => !(e.1 == r.dst) && !(e.1 == r.src)), fsC.dirs⟩
              (parentOf r.dst)), warns0) := by
        unfold undoStep
        rw [hex]
        simp only [if_true, Bool.false_eq_true, if_false]
        rw [hmv]
      rw [hstep]
      rw [Option.some_bind]
      set fsC2 := FS.rmdirIfEmpty
        ⟨(r.src, fd) :: fsC.files.filter
            (fun e => !(e.1 == r.dst) && !(e.1 == r.src)), fsC.dirs⟩
        (parentOf r.dst) with hfsC2
      have hC2files : fsC2.files
          = (r.src, fd) :: fsC.files.filter
              (fun e => !(e.1 == r.dst) && !(e.1 == r.src)) := by
        rw [hfsC2, rmdirIfEmpty_files]
      have hC2lookup : ∀ q, fsC2.files.lookup q
          = if q = r.src then some fd
            else if q = r.dst then none else fsC.files.lookup q := by
        intro q
        rw [hC2files]
        exact lookup_move_files fsC r.dst r.src fd q
      have hC2sub : ∀ x ∈ fsC2.dirs, x ∈ fsC.dirs := by
        intro x hx
        rw [hfsC2] at hx
        exact rmdirIfEmpty_dirs_subset
          ⟨(r.src, fd) :: fsC.files.filter
              (fun e => !(e.1 == r.dst) && !(e.1 == r.src)), fsC.dirs⟩
          (parentOf r.dst) x hx
      have hparne : src0 ≠ parentOf r.dst := by
        rw [hdn, parentOf_concat2]
        intro he
        have hl := congrArg List.length he
        simp only [List.length_append, List.length_cons, List.length_nil] at hl
        omega
      have hC2src0 : src0 ∈ fsC2.dirs := by
        rw [hfsC2]
        exact rmdirIfEmpty_dirs_keep hsrc0 hparne
      rcases ih fsC2 warns0 hshape0 hsrcnd0 hdstnd0
        (by
          intro x hx
          rw [hC2lookup]
          rw [if_neg (hsrc_ne x hx), if_neg (hlen_ne x (hmem0 x hx) r hrP)]
          exact hsrcfree x (hmem0 x hx))
        (by
          intro x hx
          rw [hC2lookup]
          rw [if_neg (fun he => hlen_ne r hrP x (hmem0 x hx) he.symm),
            if_neg (hdst_ne x hx)]
          exact hdstpres x (hmem0 x hx))
        (fun x hx => hnotdirs x (hmem0 x hx)) hC2src0
        (fun x hx => hsub x (hC2sub x hx)) with
        ⟨fs2, w2, hfold, hrest, hwarn, hpres, hdirs, hsrc0f⟩
      refine ⟨fs2, w2, hfold, ?_, ?_, ?_, fun x hx => hC2sub x (hdirs x hx), hsrc0f⟩
      · intro x hx hxs
        rcases List.mem_append.mp hx with h1 | h1
        · exact hrest x h1 hxs
        · rcases List.mem_singleton.mp h1 with rfl
          have hq := hpres x.src (by
            intro y hy
            exact ⟨fun he => hsrc_ne y hy he.symm,
              fun he => hlen_ne x hrP y (hmem0 y hy) he⟩)
          rw [hq, hC2lookup, if_pos rfl, hlk]
      · intro x hx hxnone
        rcases List.mem_append.mp hx with h1 | h1
        · exact hwarn x h1 hxnone
        · rcases List.mem_singleton.mp h1 with rfl
          rw [hlk] at hxnone
          cases hxnone
      · intro q hq
        rw [hpres q (fun y hy => hq y (hmem0 y hy)), hC2lookup,
          if_neg (hq r hrP).1, if_neg (hq r hrP).2]
    | none =>
      -- destination missing: warn and skip
      have hCd : fsC.files.lookup r.dst = none := by
        rw [hdstpres r hrP, hlk]
      have hex : fsC.existsB r.dst = false := by
        unfold FS.existsB
        rw [hCd]
        simp only [Option.isSome_none, Bool.false_or]
        cases hb : fsC.dirs.contains r.dst
        · rfl
        · exact absurd (hsub _ (contains_iff_mem.mp hb)) (hnotdirs r hrP).2
      have hstep : undoStep false (fsC, warns0) r
          = some (fsC, warns0 ++ [r.dst]) := by
        unfold undoStep
        rw [hex]
        simp
      rw [hstep]
      rw [Option.some_bind]
      rcases ih fsC (warns0 ++ [r.dst]) hshape0 hsrcnd0 hdstnd0
        (fun x hx => hsrcfree x (hmem0 x hx))
        (fun x hx => hdstpres x (hmem0 x hx))
        (fun x hx => hnotdirs x (hmem0 x hx)) hsrc0 hsub with
        ⟨fs2, w2, hfold, hrest, hwarn, hpres, hdirs, hsrc0f⟩
      refine ⟨fs2, [r.dst] ++ w2, by rw [hfold]; simp, ?_, ?_, ?_, hdirs, hsrc0f⟩
      · intro x hx hxs
        rcases List.mem_append.mp hx with h1 | h1
        · exact hrest x h1 hxs
        · rcases List.mem_singleton.mp h1 with rfl
          rw [hlk] at hxs
          cases hxs
      · intro x hx hxnone
        rcases List.mem_append.mp hx with h1 | h1
        · exact List.mem_append_right _ (hwarn x h1 hxnone)
        · rcases List.mem_singleton.mp h1 with rfl
          exact List.mem_append_left _ (by simp)
      · intro q hq
        exact hpres q (fun y hy => hq y (hmem0 y hy))

/-- C8: during a non-simulation `undo_last_operation` over a well-shaped
nonempty ledger, every record whose destination no longer exists is reported
as a warning and skipped without aborting the batch; every record whose
destination exists is restored to its source; and afterwards the ledger file
is deleted regardless of how many records were skipped. -/
theorem C8_undo_skips_missing_and_clears (eng : Engine) (fs : FS) (src0 : FsPath)
    (h : List MoveRecord) (sim : List FsPath)
    (hdry : eng.dry_run = false)
    (hne : h ≠ [])
    (hsrc0 : src0 ∈ fs.dirs)
    (hshape : ∀ r ∈ h, (∃ nm, r.src = src0 ++ [nm]) ∧ (∃ c n, r.dst = src0 ++ [c, n]))
    (hsrcfree : ∀ r ∈ h, fs.files.lookup r.src = none)
    (hnotdirs : ∀ r ∈ h, r.src ∉ fs.dirs ∧ r.dst ∉ fs.dirs)
    (hsrcnd : (h.map (fun r => r.src)).Nodup)
    (hdstnd : (h.map (fun r => r.dst)).Nodup) :
    ∃ fs2 warns, undo_last_operation eng ⟨fs, LedgerFile.valid h, sim⟩
        = some (⟨fs2, LedgerFile.absent, sim⟩, warns)
      ∧ (∀ r ∈ h, (fs.files.lookup r.dst).isSome →
            fs2.files.lookup r.src = fs.files.lookup r.dst)
      ∧ (∀ r ∈ h, fs.files.lookup r.dst = none → r.dst ∈ warns) := by
  rcases undo_fold_spec fs src0 h fs [] hshape hsrcnd hdstnd hsrcfree
    (fun r _ => rfl) hnotdirs hsrc0 (fun x hx => hx) with
    ⟨fs2, w2, hfold, hrest, hwarn, _, _, _⟩
  refine ⟨fs2, w2, ?_, hrest, hwarn⟩
  have hie : h.isEmpty = false := by
    cases h
    · exact absurd rfl hne
    · rfl
  simp only [undo_last_operation, hie, Bool.false_eq_true, if_false, hdry]
  rw [hfold]
  simp

/-- The concrete filesystem and ledger of the C8 example: `a.txt` was moved
to `D/a.txt` and is still there; `b.txt`'s recorded destination `D/b.txt` has
disappeared. -/
def c8Fs : FS := ⟨[(["s", "D", "a.txt"], ⟨some [1], 0⟩)], [["s"], ["s", "D"]]⟩

def c8H : List MoveRecord :=
  [⟨["s", "a.txt"], ["s", "D", "a.txt"], 1⟩, ⟨["s", "b.txt"], ["s", "D", "b.txt"], 2⟩]

/-- C8 witness. -/
theorem C8_undo_skips_missing_and_clears_witness :
    engReal.dry_run = false ∧ c8H ≠ [] ∧ ["s"] ∈ c8Fs.dirs
    ∧ (∃ fs2 warns, undo_last_operation engReal ⟨c8Fs, LedgerFile.valid c8H, []⟩
          = some (⟨fs2, LedgerFile.absent, []⟩, warns)
        ∧ (∀ r ∈ c8H, (c8Fs.files.lookup r.dst).isSome →
              fs2.files.lookup r.src = c8Fs.files.lookup r.dst)
        ∧ (∀ r ∈ c8H, c8Fs.files.lookup r.dst = none → r.dst ∈ warns)) := by
  refine ⟨rfl, by decide, by decide, ?_⟩
  exact C8_undo_skips_missing_and_clears engReal c8Fs ["s"] c8H [] rfl (by decide)
    (by decide)
    (by
      intro r hr
      fin_cases hr
      · exact ⟨⟨"a.txt", rfl⟩, ⟨"D", "a.txt", rfl⟩⟩
      · exact ⟨⟨"b.txt", rfl⟩, ⟨"D", "b.txt", rfl⟩⟩)
    (by decide) (by decide) (by decide) (by decide)

/-! ## C1: undo is a left inverse of a real run

The development follows the run with an invariant (`RunFacts`) strong enough
to replay the ledger backwards: it records how the file map differs from the
initial one, that created directories sit directly under the source root and
contain only recorded destinations, and the chronology facts needed to show
that a directory created on top of a vacated source path is pruned (by the
empty-folder cleanup) before that source path is restored. -/

/-- Well-formedness of the initial filesystem: distinct file paths, no path
that is both file and directory, and parents of files/directories exist. -/
structure FS.Wf (fs : FS) : Prop where
  nodupKeys : (fs.files.map Prod.fst).Nodup
  filesNotDirs : ∀ e ∈ fs.files, e.1 ∉ fs.dirs
  fileParents : ∀ e ∈ fs.files, parentOf e.1 ∈ fs.dirs
  dirParents : ∀ d ∈ fs.dirs, d = [] ∨ parentOf d ∈ fs.dirs

theorem shape1_ne_shape2 {source : FsPath} {a b c : String} :
    source ++ [a] ≠ source ++ [b, c] := by
  intro he
  have hl := congrArg List.length he
  simp only [List.length_append, List.length_cons, List.length_nil] at hl
  omega

theorem source_ne_shape1 {source : FsPath} {a : String} : source ≠ source ++ [a] := by
  intro he
  have hl := congrArg List.length he
  simp only [List.length_append, List.length_cons, List.length_nil] at hl
  omega

/-- The invariant carried along a real (`dry_run=false`) run. `recs` is the
ledger content; `fs0` the filesystem before the run. -/
structure RunFacts (fs0 : FS) (source : FsPath) (recs : List MoveRecord)
    (st : OrganizerState) : Prop where
  ledger : st.ledger
      = if recs.isEmpty then LedgerFile.absent else LedgerFile.valid recs
  srcShape : ∀ r ∈ recs, ∃ nm, r.src = source ++ [nm]
  dstShape : ∀ r ∈ recs, ∃ c n, r.dst = source ++ [c, n]
  srcSome : ∀ r ∈ recs, (fs0.files.lookup r.src).isSome
  dstFresh : ∀ r ∈ recs, fs0.files.lookup r.dst = none ∧ r.dst ∉ fs0.dirs
  lookSrc : ∀ r ∈ recs, st.fs.files.lookup r.src = none
  lookDst : ∀ r ∈ recs, st.fs.files.lookup r.dst = fs0.files.lookup r.src
  lookOther : ∀ q : FsPath, (∀ r ∈ recs, q ≠ r.src ∧ q ≠ r.dst) →
      st.fs.files.lookup q = fs0.files.lookup q
  dirsMono : ∀ d ∈ fs0.dirs, d ∈ st.fs.dirs
  dirsNew : ∀ d ∈ st.fs.dirs, d ∈ fs0.dirs
      ∨ ((∃ c, d = source ++ [c]) ∧ ∃ r ∈ recs, parentOf r.dst = d)
  dstParentDir : ∀ r ∈ recs, parentOf r.dst ∈ st.fs.dirs
  orderPair : recs.Pairwise (fun a b => parentOf a.dst ≠ b.src)
  orderDiag : ∀ r ∈ recs, parentOf r.dst ≠ r.src
  srcNodup : (recs.map (fun r => r.src)).Nodup
  dstNodup : (recs.map (fun r => r.dst)).Nodup
  wfNodup : (st.fs.files.map Prod.fst).Nodup
  wfDisj : ∀ e ∈ st.fs.files, e.1 ∉ st.fs.dirs
  filesParents : ∀ e ∈ st.fs.files, parentOf e.1 ∈ st.fs.dirs

theorem runFacts_init (fs0 : FS) (source : FsPath) (sim : List FsPath)
    (hwf : fs0.Wf) :
    RunFacts fs0 source [] ⟨fs0, LedgerFile.absent, sim⟩ := by
  refine ⟨rfl, ?_, ?_, ?_, ?_, ?_, ?_, ?_, ?_, ?_, ?_, ?_, ?_, ?_, ?_, ?_, ?_, ?_⟩
  · intro r hr; exact absurd hr (List.not_mem_nil r)
  · intro r hr; exact absurd hr (List.not_mem_nil r)
  · intro r hr; exact absurd hr (List.not_mem_nil r)
  · intro r hr; exact absurd hr (List.not_mem_nil r)
  · intro r hr; exact absurd hr (List.not_mem_nil r)
  · intro r hr; exact absurd hr (List.not_mem_nil r)
  · intro q _; rfl
  · intro d hd; exact hd
  · intro d hd; exact Or.inl hd
  · intro r hr; exact absurd hr (List.not_mem_nil r)
  · exact List.Pairwise.nil
  · intro r hr; exact absurd hr (List.not_mem_nil r)
  · exact List.nodup_nil
  · exact List.nodup_nil
  · exact hwf.nodupKeys
  · exact hwf.filesNotDirs
  · exact hwf.fileParents

theorem log_move_append (recs : List MoveRecord) (src dst : FsPath) (now : Nat) :
    _log_move false (if recs.isEmpty then LedgerFile.absent else LedgerFile.valid recs)
        src dst now
      = LedgerFile.valid (recs ++ [⟨src, dst, now⟩]) := by
  cases recs <;> simp [_log_move]

/-- The common tail of the run-invariant step: once a branch of `process_file`
has produced an intermediate filesystem `fsM` (the mkdir results) and a fresh
destination of shape `source/c/n`, executing the real move extends the
invariant by one record. -/
theorem finish_runFacts (eng : Engine) (now : Nat) (fs0 : FS)
    (recs : List MoveRecord) (st st2 : OrganizerState) (p dest : FsPath)
    (d : Option FsPath) (fsM : FS) (nm : String)
    (hdry : eng.dry_run = false)
    (hp : p = eng.source ++ [nm])
    (hrf : RunFacts fs0 eng.source recs st)
    (hMfiles : fsM.files = st.fs.files)
    (hMsub : ∀ x ∈ st.fs.dirs, x ∈ fsM.dirs)
    (hMnew : ∀ x ∈ fsM.dirs, x ∈ st.fs.dirs ∨ x = parentOf dest)
    (hMnewNone : ∀ x ∈ fsM.dirs, x ∉ st.fs.dirs → st.fs.files.lookup x = none)
    (hdshape : ∃ c n, dest = eng.source ++ [c, n])
    (hdpar : parentOf dest ∈ fsM.dirs)
    (hdfree1 : fsM.files.lookup dest = none)
    (hdfree2 : dest ∉ fsM.dirs)
    (hok : finishMove eng now st fsM p dest = some (st2, d)) :
    d = some dest ∧ RunFacts fs0 eng.source (recs ++ [⟨p, dest, now⟩]) st2 := by
  obtain ⟨c, n, hdeq⟩ := hdshape
  have hplen : p.length = eng.source.length + 1 := by rw [hp]; simp
  have hdlen : dest.length = eng.source.length + 2 := by rw [hdeq]; simp
  rw [finishMove_real hdry] at hok
  cases hmv : fsM.move p dest with
  | none =>
    rw [hmv] at hok
    cases hok
  | some fs3 =>
    rw [hmv] at hok
    cases hok
    have hdfree2b : fsM.dirs.contains dest = false := by
      cases hb : fsM.dirs.contains dest
      · rfl
      · exact absurd (contains_iff_mem.mp hb) hdfree2
    rcases move_some_spec hdfree2b hmv with ⟨fd, hfd, hfl3, hdr3⟩
    have hfd2 : st.fs.files.lookup p = some fd := by rw [← hMfiles]; exact hfd
    have hlook3 : ∀ q, fs3.files.lookup q
        = if q = dest then some fd
          else if q = p then none else st.fs.files.lookup q := by
      intro q
      rw [hfl3, lookup_move_files, hMfiles]
    have hstdest : st.fs.files.lookup dest = none := by rw [← hMfiles]; exact hdfree1
    have hpnotdir : p ∉ fsM.dirs := by
      intro hmem
      by_cases h1 : p ∈ st.fs.dirs
      · exact hrf.wfDisj (p, fd) (mem_of_lookup_eq_some hfd2) h1
      · rw [hMnewNone p hmem h1] at hfd2
        cases hfd2
    have hpd : p ≠ dest := by
      intro he
      rw [he, hdlen] at hplen
      omega
    have hpne_src : ∀ r ∈ recs, p ≠ r.src := by
      intro r hr he
      rw [he, hrf.lookSrc r hr] at hfd2
      cases hfd2
    have hpne_dst : ∀ r ∈ recs, p ≠ r.dst := by
      intro r hr he
      obtain ⟨cr, nr, hre⟩ := hrf.dstShape r hr
      rw [hp, hre] at he
      exact shape1_ne_shape2 he
    have hdne_src : ∀ r ∈ recs, dest ≠ r.src := by
      intro r hr he
      obtain ⟨nr, hre⟩ := hrf.srcShape r hr
      rw [hdeq, hre] at he
      exact shape1_ne_shape2 he.symm
    have hdne_dst : ∀ r ∈ recs, dest ≠ r.dst := by
      intro r hr he
      have h1 := hrf.lookDst r hr
      rw [← he, hstdest] at h1
      have h2 := hrf.srcSome r hr
      rw [← h1] at h2
      cases h2
    have hfs0p : fs0.files.lookup p = some fd := by
      rw [← hrf.lookOther p (fun r hr => ⟨hpne_src r hr, hpne_dst r hr⟩)]
      exact hfd2
    have hfs0dest : fs0.files.lookup dest = none := by
      rw [← hrf.lookOther dest (fun r hr => ⟨hdne_src r hr, hdne_dst r hr⟩)]
      exact hstdest
    refine ⟨rfl, ?_⟩
    refine ⟨?_, ?_, ?_, ?_, ?_, ?_, ?_, ?_, ?_, ?_, ?_, ?_, ?_, ?_, ?_, ?_, ?_, ?_⟩
    · -- ledger
      show _log_move false st.ledger p dest now = _
      rw [hrf.ledger, log_move_append]
      have : (recs ++ [(⟨p, dest, now⟩ : MoveRecord)]).isEmpty = false := by
        cases recs <;> rfl
      rw [this]
      simp
    · -- srcShape
      intro r hr
      rcases List.mem_append.mp hr with h1 | h1
      · exact hrf.srcShape r h1
      · rcases List.mem_singleton.mp h1 with rfl
        exact ⟨nm, hp⟩
    · -- dstShape
      intro r hr
      rcases List.mem_append.mp hr with h1 | h1
      · exact hrf.dstShape r h1
      · rcases List.mem_singleton.mp h1 with rfl
        exact ⟨c, n, hdeq⟩
    · -- srcSome
      intro r hr
      rcases List.mem_append.mp hr with h1 | h1
      · exact hrf.srcSome r h1
      · rcases List.mem_singleton.mp h1 with rfl
        rw [hfs0p]
        rfl
    · -- dstFresh
      intro r hr
      rcases List.mem_append.mp hr with h1 | h1
      · exact hrf.dstFresh r h1
      · rcases List.mem_singleton.mp h1 with rfl
        refine ⟨hfs0dest, fun hm => hdfree2 (hMsub _ (hrf.dirsMono _ hm))⟩
    · -- lookSrc
      intro r hr
      rcases List.mem_append.mp hr with h1 | h1
      · show fs3.files.lookup r.src = none
        rw [hlook3, if_neg (fun he => hdne_src r h1 he.symm),
          if_neg (fun he => hpne_src r h1 he.symm)]
        exact hrf.lookSrc r h1
      · rcases List.mem_singleton.mp h1 with rfl
        show fs3.files.lookup p = none
        rw [hlook3, if_neg hpd, if_pos rfl]
    · -- lookDst
      intro r hr
      rcases List.mem_append.mp hr with h1 | h1
      · show fs3.files.lookup r.dst = _
        rw [hlook3, if_neg (fun he => hdne_dst r h1 he.symm),
          if_neg (fun he => hpne_dst r h1 he.symm)]
        exact hrf.lookDst r h1
      · rcases List.mem_singleton.mp h1 with rfl
        show fs3.files.lookup dest = fs0.files.lookup p
        rw [hlook3, if_pos rfl, hfs0p]
    · -- lookOther
      intro q hq
      have hq1 := hq ⟨p, dest, now⟩ (List.mem_append_right _ (by simp))
      show fs3.files.lookup q = _
      rw [hlook3, if_neg hq1.2, if_neg hq1.1]
      exact hrf.lookOther q (fun r hr => hq r (List.mem_append_left _ hr))
    · -- dirsMono
      intro x hx
      show x ∈ fs3.dirs
      rw [hdr3]
      exact hMsub x (hrf.dirsMono x hx)
    · -- dirsNew
      intro x hx
      rw [hdr3] at hx
      rcases hMnew x hx with h1 | h1
      · rcases hrf.dirsNew x h1 with h2 | ⟨h2, r, hr, hre⟩
        · exact Or.inl h2
        · exact Or.inr ⟨h2, r, List.mem_append_left _ hr, hre⟩
      · refine Or.inr ⟨⟨c, by rw [h1, hdeq, parentOf_concat2]⟩,
          ⟨p, dest, now⟩, List.mem_append_right _ (by simp), h1.symm⟩
    · -- dstParentDir
      intro r hr
      show parentOf r.dst ∈ fs3.dirs
      rw [hdr3]
      rcases List.mem_append.mp hr with h1 | h1
      · exact hMsub _ (hrf.dstParentDir r h1)
      · rcases List.mem_singleton.mp h1 with rfl
        exact hdpar
    · -- orderPair
      rw [List.pairwise_append]
      refine ⟨hrf.orderPair, List.pairwise_singleton _ _, ?_⟩
      intro a ha b hb
      rcases List.mem_singleton.mp hb with rfl
      show parentOf a.dst ≠ p
      intro he
      have h1 := hrf.dstParentDir a ha
      rw [he] at h1
      exact absurd (hMsub _ h1) hpnotdir
    · -- orderDiag
      intro r hr
      rcases List.mem_append.mp hr with h1 | h1
      · exact hrf.orderDiag r h1
      · rcases List.mem_singleton.mp h1 with rfl
        show parentOf dest ≠ p
        intro he
        rw [he] at hdpar
        exact hpnotdir hdpar
    · -- srcNodup
      rw [List.map_append, List.nodup_append]
      refine ⟨hrf.srcNodup, by simp, ?_⟩
      intro a ha hb
      rcases List.mem_map.mp ha with ⟨r, hr, rfl⟩
      simp only [List.map_cons, List.map_nil, List.mem_singleton] at hb
      exact hpne_src r hr hb.symm
    · -- dstNodup
      rw [List.map_append, List.nodup_append]
      refine ⟨hrf.dstNodup, by simp, ?_⟩
      intro a ha hb
      rcases List.mem_map.mp ha with ⟨r, hr, rfl⟩
      simp only [List.map_cons, List.map_nil, List.mem_singleton] at hb
      exact hdne_dst r hr hb.symm
    · -- wfNodup
      show ((fs3.files).map Prod.fst).Nodup
      rw [hfl3]
      rw [List.map_cons, List.nodup_cons]
      constructor
      · intro hmem
        rcases List.mem_map.mp hmem with ⟨e, he, hee⟩
        have := (List.mem_filter.mp he).2
        rw [hee] at this
        simp at this
      · have hsl : (fsM.files.filter
            (fun e => !(e.1 == p) && !(e.1 == dest))).Sublist fsM.files :=
          List.filter_sublist _
        have := (hsl.map Prod.fst).nodup ?_
        · exact this
        · rw [hMfiles]
          exact hrf.wfNodup
    · -- wfDisj
      intro e he hmem
      show False
      rw [hdr3] at hmem
      rw [hfl3] at he
      rcases List.mem_cons.mp he with h1 | h1
      · rw [h1] at hmem
        exact hdfree2 hmem
      · have he2 : e ∈ st.fs.files := by
          rw [← hMfiles]
          exact (List.mem_filter.mp h1).1
        by_cases h3 : e.1 ∈ st.fs.dirs
        · exact hrf.wfDisj e he2 h3
        · have hlk : st.fs.files.lookup e.1 = some e.2 :=
            mem_lookup_of_nodup hrf.wfNodup (by rcases e with ⟨a, b⟩; exact he2)
          rw [hMnewNone e.1 hmem h3] at hlk
          cases hlk
    · -- filesParents
      intro e he
      show parentOf e.1 ∈ fs3.dirs
      rw [hdr3]
      rw [hfl3] at he
      rcases List.mem_cons.mp he with h1 | h1
      · rw [h1]
        exact hdpar
      · have he2 : e ∈ st.fs.files := by
          rw [← hMfiles]
          exact (List.mem_filter.mp h1).1
        exact hMsub _ (hrf.filesParents e he2)

theorem dupStream_parent (dd : FsPath) (fname : String) (k : Nat) :
    parentOf (dupStream dd fname k) = dd := by
  cases k with
  | zero => exact parentOf_concat dd fname
  | succ k => exact parentOf_concat dd _

theorem stdStream_parent (t : FsPath) (pfx ds sfx : String) (k : Nat) :
    parentOf (stdStream t pfx ds sfx k) = t :=
  parentOf_concat t _

theorem dupStream_shape (source : FsPath) (fname : String) (k : Nat) :
    ∃ c n, dupStream (source ++ ["Duplicates"]) fname k = source ++ [c, n] := by
  cases k with
  | zero =>
    refine ⟨"Duplicates", fname, ?_⟩
    show (source ++ ["Duplicates"]) ++ [fname] = source ++ ["Duplicates", fname]
    simp
  | succ k =>
    refine ⟨"Duplicates", "Duplicate_" ++ natRepr (k + 1) ++ "_" ++ fname, ?_⟩
    show (source ++ ["Duplicates"]) ++ ["Duplicate_" ++ natRepr (k + 1) ++ "_" ++ fname]
      = source ++ ["Duplicates", "Duplicate_" ++ natRepr (k + 1) ++ "_" ++ fname]
    simp

theorem stdStream_shape (source : FsPath) (cat pfx ds sfx : String) (k : Nat) :
    ∃ c n, stdStream (source ++ [cat]) pfx ds sfx k = source ++ [c, n] := by
  refine ⟨cat, pfx ++ "_" ++ ds ++ "_" ++ pad2 (k + 1) ++ sfx, ?_⟩
  show (source ++ [cat]) ++ [pfx ++ "_" ++ ds ++ "_" ++ pad2 (k + 1) ++ sfx]
    = source ++ [cat, pfx ++ "_" ++ ds ++ "_" ++ pad2 (k + 1) ++ sfx]
  simp

/-- One step of the run invariant: a real-mode `process_file` preserves
`RunFacts`, extending the ledger by at most one record. -/
theorem runFacts_step (eng : Engine) (fmtDate : Nat → String) (now : Nat)
    (fs0 : FS) (recs : List MoveRecord) (st st2 : OrganizerState) (p : FsPath)
    (d : Option FsPath) (nm : String)
    (hdry : eng.dry_run = false)
    (hp : p = eng.source ++ [nm])
    (hrf : RunFacts fs0 eng.source recs st)
    (hok : process_file eng fmtDate now st p = some (st2, d)) :
    ∃ recs2, RunFacts fs0 eng.source recs2 st2 := by
  simp only [process_file] at hok
  split at hok
  · cases hok
    exact ⟨recs, hrf⟩
  · split at hok
    case h_1 => cases hok
    case h_2 fs1 hmk1 =>
      rcases mkdirExistOk_spec hmk1 with ⟨hf1, hd1, hsub1, hnew1, hor1⟩
      split at hok
      case isTrue hdup =>
        have hfs1dirs : fs1.dirs = st.fs.dirs := by
          rcases hor1 with h | ⟨hcons, hnotin, hnone⟩
          · exact h
          · exfalso
            have hemp : fs1.filesInDir (eng.source ++ [_get_category p]) = [] := by
              unfold FS.filesInDir
              rw [List.filter_eq_nil_iff]
              intro e he
              rw [hf1] at he
              have hpar := hrf.filesParents e he
              intro hin
              unfold inDir at hin
              rcases Bool.and_eq_true_iff.mp hin with ⟨_, hdl⟩
              have hdl2 : e.1.dropLast = eng.source ++ [_get_category p] := by
                simpa using hdl
              rw [← hdl2] at hnotin
              exact hnotin hpar
            rw [hemp] at hdup
            simp at hdup
        split at hok
        case h_1 => cases hok
        case h_2 fs2 hmk2 =>
          rcases mkdirExistOk_spec hmk2 with ⟨hf2, hd2, hsub2, hnew2, hor2⟩
          have hMfiles : fs2.files = st.fs.files := by rw [hf2, hf1]
          have hfree := searchFree_unoccupied eng st fs2 _
            (dupStream_injective (eng.source ++ ["Duplicates"]) (pathName p))
          set dest := searchFree (occupiedB eng st fs2)
            (dupStream (eng.source ++ ["Duplicates"]) (pathName p)) 0
            (searchFuel st fs2) with hdest
          rcases searchFree_mem (occupiedB eng st fs2)
            (dupStream (eng.source ++ ["Duplicates"]) (pathName p)) 0
            (searchFuel st fs2) with ⟨j, hj⟩
          have hdshape : ∃ c n, dest = eng.source ++ [c, n] := by
            rw [hdest, hj]
            exact dupStream_shape _ _ j
          have hdparent : parentOf dest = eng.source ++ ["Duplicates"] := by
            rw [hdest, hj]
            exact dupStream_parent _ _ j
          have hMsub : ∀ x ∈ st.fs.dirs, x ∈ fs2.dirs := by
            intro x hx
            exact hsub2 x (by rw [hfs1dirs]; exact hx)
          have hMnew : ∀ x ∈ fs2.dirs, x ∈ st.fs.dirs ∨ x = parentOf dest := by
            intro x hx
            rcases hnew2 x hx with h1 | h1
            · exact Or.inl (by rw [← hfs1dirs]; exact h1)
            · exact Or.inr (by rw [hdparent, h1])
          have hMnewNone : ∀ x ∈ fs2.dirs, x ∉ st.fs.dirs →
              st.fs.files.lookup x = none := by
            intro x hx hnx
            rcases hor2 with h | ⟨hcons, hnotin, hnone⟩
            · rw [h, hfs1dirs] at hx
              exact absurd hx hnx
            · rw [hcons] at hx
              rcases List.mem_cons.mp hx with rfl | h1
              · rw [← hf1]
                exact hnone
              · rw [hfs1dirs] at h1
                exact absurd h1 hnx
          unfold occupiedB FS.existsB at hfree
          rcases Bool.or_eq_false_iff.mp hfree with ⟨hex, _⟩
          rcases Bool.or_eq_false_iff.mp hex with ⟨hlk, hdr⟩
          have hdfree1 : fs2.files.lookup dest = none := by
            cases hv : fs2.files.lookup dest
            · rfl
            · rw [hv] at hlk
              cases hlk
          have hdfree2 : dest ∉ fs2.dirs := fun hm => by
            rw [contains_iff_mem.mpr hm] at hdr
            cases hdr
          have hdpar2 : parentOf dest ∈ fs2.dirs := by
            rw [hdparent]
            exact hd2
          exact ⟨recs ++ [⟨p, dest, now⟩],
            (finish_runFacts eng now fs0 recs st st2 p dest d fs2 nm hdry hp hrf
              hMfiles hMsub hMnew hMnewNone hdshape hdpar2 hdfree1 hdfree2 hok).2⟩
      case isFalse hdup =>
        split at hok
        case h_1 => cases hok
        case h_2 fd0 hfd0 =>
          have hfree := searchFree_unoccupied eng st fs1 _
            (stdStream_injective (eng.source ++ [_get_category p])
              (categoryPfx (_get_category p)) (fmtDate fd0.ctime)
              (suffixOf (pathName p)))
          set dest := searchFree (occupiedB eng st fs1)
            (stdStream (eng.source ++ [_get_category p])
              (categoryPfx (_get_category p)) (fmtDate fd0.ctime)
              (suffixOf (pathName p))) 0 (searchFuel st fs1) with hdest
          rcases searchFree_mem (occupiedB eng st fs1)
            (stdStream (eng.source ++ [_get_category p])
              (categoryPfx (_get_category p)) (fmtDate fd0.ctime)
              (suffixOf (pathName p))) 0 (searchFuel st fs1) with ⟨j, hj⟩
          have hdshape : ∃ c n, dest = eng.source ++ [c, n] := by
            rw [hdest, hj]
            exact stdStream_shape _ _ _ _ _ j
          have hdparent : parentOf dest = eng.source ++ [_get_category p] := by
            rw [hdest, hj]
            exact stdStream_parent _ _ _ _ j
          have hMnew : ∀ x ∈ fs1.dirs, x ∈ st.fs.dirs ∨ x = parentOf dest := by
            intro x hx
            rcases hnew1 x hx with h1 | h1
            · exact Or.inl h1
            · exact Or.inr (by rw [hdparent, h1])
          have hMnewNone : ∀ x ∈ fs1.dirs, x ∉ st.fs.dirs →
              st.fs.files.lookup x = none := by
            intro x hx hnx
            rcases hor1 with h | ⟨hcons, hnotin, hnone⟩
            · rw [h] at hx
              exact absurd hx hnx
            · rw [hcons] at hx
              rcases List.mem_cons.mp hx with rfl | h1
              · exact hnone
              · exact absurd h1 hnx
          unfold occupiedB FS.existsB at hfree
          rcases Bool.or_eq_false_iff.mp hfree with ⟨hex, _⟩
          rcases Bool.or_eq_false_iff.mp hex with ⟨hlk, hdr⟩
          have hdfree1 : fs1.files.lookup dest = none := by
            cases hv : fs1.files.lookup dest
            · rfl
            · rw [hv] at hlk
              cases hlk
          have hdfree2 : dest ∉ fs1.dirs := fun hm => by
            rw [contains_iff_mem.mpr hm] at hdr
            cases hdr
          have hdpar2 : parentOf dest ∈ fs1.dirs := by
            rw [hdparent]
            exact hd1
          exact ⟨recs ++ [⟨p, dest, now⟩],
            (finish_runFacts eng now fs0 recs st st2 p dest d fs1 nm hdry hp hrf
              hf1 hsub1 hMnew hMnewNone hdshape hdpar2 hdfree1 hdfree2 hok).2⟩

/-- The run invariant holds at the end of any successful real run. -/
theorem runAll_runFacts (eng : Engine) (fmtDate : Nat → String) (now : Nat)
    (fs0 : FS) (hdry : eng.dry_run = false) :
    ∀ (ps : List FsPath) (st : OrganizerState) (recs : List MoveRecord)
      (st2 : OrganizerState) (ds : List FsPath),
    (∀ p ∈ ps, ∃ nm, p = eng.source ++ [nm]) →
    RunFacts fs0 eng.source recs st →
    runAll eng fmtDate now st ps = some (st2, ds) →
    ∃ recs2, RunFacts fs0 eng.source recs2 st2 := by
  intro ps
  induction ps with
  | nil =>
    intro st recs st2 ds _ hrf hrun
    simp only [runAll] at hrun
    cases hrun
    exact ⟨recs, hrf⟩
  | cons p ps ih =>
    intro st recs st2 ds hps hrf hrun
    simp only [runAll] at hrun
    split at hrun
    case h_1 => cases hrun
    case h_2 stm d hpf =>
      split at hrun
      case h_1 => cases hrun
      case h_2 stf ds2 hrest =>
        cases hrun
        rcases hps p (List.mem_cons_self _ _) with ⟨nm, hnm⟩
        rcases runFacts_step eng fmtDate now fs0 recs st stm p d nm hdry hnm hrf
          hpf with ⟨recs2, hrf2⟩
        exact ih stm recs2 _ ds2
          (fun q hq => hps q (List.mem_cons_of_mem _ hq)) hrf2 hrest

/-! ### Replaying the ledger backwards -/

theorem inDir_spec {p d : FsPath} (h : inDir p d = true) : p ≠ [] ∧ p.dropLast = d := by
  unfold inDir at h
  rcases Bool.and_eq_true_iff.mp h with ⟨h1, h2⟩
  refine ⟨?_, by simpa using h2⟩
  intro he
  rw [he] at h1
  simp at h1

theorem dirNonempty_false {fs : FS} {d : FsPath}
    (hf : ∀ e ∈ fs.files, inDir e.1 d = false)
    (hd : ∀ x ∈ fs.dirs, inDir x d = false) :
    fs.dirNonempty d = false := by
  unfold FS.dirNonempty
  rw [Bool.or_eq_false_iff]
  constructor
  · rw [List.any_eq_false]
    intro e he
    rw [hf e he]
    simp
  · rw [List.any_eq_false]
    intro x hx
    rw [hd x hx]
    simp

theorem rmdirIfEmpty_removes {fs : FS} {d : FsPath} (h : fs.dirNonempty d = false) :
    d ∉ (fs.rmdirIfEmpty d).dirs := by
  unfold FS.rmdirIfEmpty
  rw [h]
  simp only [Bool.false_eq_true, if_false]
  intro hm
  have h2 := (List.mem_filter.mp hm).2
  simp at h2

/-- The state of the world while the ledger `P` (chronological) is still
pending during undo: the invariant mirrors `RunFacts` on the filesystem, and
`uB` records that every surviving run-created directory still has a pending
record pointing into it. -/
structure UndoCtx (fs0 : FS) (source : FsPath) (P : List MoveRecord) (fs : FS) :
    Prop where
  srcShape : ∀ r ∈ P, ∃ nm, r.src = source ++ [nm]
  dstShape : ∀ r ∈ P, ∃ c n, r.dst = source ++ [c, n]
  srcSome : ∀ r ∈ P, (fs0.files.lookup r.src).isSome
  dstFresh : ∀ r ∈ P, fs0.files.lookup r.dst = none ∧ r.dst ∉ fs0.dirs
  lookSrc : ∀ r ∈ P, fs.files.lookup r.src = none
  lookDst : ∀ r ∈ P, fs.files.lookup r.dst = fs0.files.lookup r.src
  lookOther : ∀ q : FsPath, (∀ r ∈ P, q ≠ r.src ∧ q ≠ r.dst) →
      fs.files.lookup q = fs0.files.lookup q
  orderPair : P.Pairwise (fun a b => parentOf a.dst ≠ b.src)
  orderDiag : ∀ r ∈ P, parentOf r.dst ≠ r.src
  srcNodup : (P.map (fun r => r.src)).Nodup
  dstNodup : (P.map (fun r => r.dst)).Nodup
  uSource : source ∈ fs.dirs
  uDirsShape : ∀ x ∈ fs.dirs, x ∈ fs0.dirs ∨ ∃ c, x = source ++ [c]
  uB : ∀ x ∈ fs.dirs, x ∉ fs0.dirs → ∃ r ∈ P, parentOf r.dst = x
  uNodup : (fs.files.map Prod.fst).Nodup

/-- Undoing the full pending ledger restores the initial file map, never
raises, and prints no warnings.  The key step: when the last pending record
into a run-created directory is restored, that directory becomes empty and
the cleanup prunes it — in particular a directory created on top of a vacated
source path is gone by the time that source path is restored. -/
theorem undo_run_fold (fs0 : FS) (source : FsPath) (hwf : fs0.Wf)
    (P : List MoveRecord) :
    ∀ (fsC : FS) (warns0 : List FsPath),
    UndoCtx fs0 source P fsC →
    ∃ fs2, List.foldlM (fun acc entry => undoStep false acc entry)
        ((fsC, warns0) : FS × List FsPath) P.reverse = some (fs2, warns0)
      ∧ (∀ q, fs2.files.lookup q = fs0.files.lookup q) := by
  induction P using List.reverseRecOn with
  | nil =>
    intro fsC warns0 hctx
    refine ⟨fsC, ?_, ?_⟩
    · rw [List.reverse_nil, List.foldlM_nil]
      rfl
    · intro q
      exact hctx.lookOther q (fun r hr => absurd hr (List.not_mem_nil r))
  | append_singleton P0 r ih =>
    intro fsC warns0 hctx
    have hrP : r ∈ P0 ++ [r] := List.mem_append_right _ (by simp)
    have hmem0 : ∀ x ∈ P0, x ∈ P0 ++ [r] := fun x hx => List.mem_append_left _ hx
    obtain ⟨nmr, hnm⟩ := hctx.srcShape r hrP
    obtain ⟨cr, nr, hdn⟩ := hctx.dstShape r hrP
    have hsrcnd := hctx.srcNodup
    have hdstnd := hctx.dstNodup
    rw [List.map_append] at hsrcnd hdstnd
    have hsrc_ne : ∀ x ∈ P0, x.src ≠ r.src := by
      have hdisj := (List.nodup_append.mp hsrcnd).2.2
      intro x hx he
      exact hdisj (List.mem_map_of_mem _ hx) (by simp [he])
    have hdst_ne : ∀ x ∈ P0, x.dst ≠ r.dst := by
      have hdisj := (List.nodup_append.mp hdstnd).2.2
      intro x hx he
      exact hdisj (List.mem_map_of_mem _ hx) (by simp [he])
    have hlen_ne : ∀ x ∈ P0 ++ [r], ∀ y ∈ P0 ++ [r], x.src ≠ y.dst := by
      intro x hx y hy he
      obtain ⟨nx, hx1⟩ := hctx.srcShape x hx
      obtain ⟨cy, ny, hy2⟩ := hctx.dstShape y hy
      rw [hx1, hy2] at he
      exact shape1_ne_shape2 he
    have hsome := hctx.srcSome r hrP
    obtain ⟨fd, hfd⟩ := Option.isSome_iff_exists.mp hsome
    have hCd : fsC.files.lookup r.dst = some fd := by
      rw [hctx.lookDst r hrP, hfd]
    have hex : fsC.existsB r.dst = true := by
      unfold FS.existsB
      rw [hCd]
      simp
    have hsrcnotdirP : r.src ∉ fsC.dirs := by
      intro hmem
      by_cases h0 : r.src ∈ fs0.dirs
      · exact hwf.filesNotDirs (r.src, fd) (mem_of_lookup_eq_some hfd) h0
      · rcases hctx.uB _ hmem h0 with ⟨r2, hr2, hre⟩
        rcases List.mem_append.mp hr2 with h2 | h2
        · have hpair := hctx.orderPair
          rw [List.pairwise_append] at hpair
          exact hpair.2.2 r2 h2 r (by simp) hre
        · rw [List.mem_singleton.mp h2] at hre
          exact hctx.orderDiag r hrP hre
    have hsrcnotdir : fsC.dirs.contains r.src = false := by
      cases hb : fsC.dirs.contains r.src
      · rfl
      · exact absurd (contains_iff_mem.mp hb) hsrcnotdirP
    have hparent : fsC.dirs.contains (parentOf r.src) = true := by
      rw [hnm, parentOf_concat]
      exact contains_iff_mem.mpr hctx.uSource
    have hmv := move_eq hCd hsrcnotdir hparent
    have hstep : undoStep false (fsC, warns0) r
        = some ((FS.rmdirIfEmpty
            ⟨(r.src, fd) :: fsC.files.filter
                (fun e => !(e.1 == r.dst) && !(e.1 == r.src)), fsC.dirs⟩
            (parentOf r.dst)), warns0) := by
      unfold undoStep
      rw [hex]
      simp only [if_true, Bool.false_eq_true, if_false]
      rw [hmv]
    have hrev : (P0 ++ [r]).reverse = r :: P0.reverse := by
      simp
    rw [hrev, foldlM_cons_option, hstep, Option.some_bind]
    set inner : FS := ⟨(r.src, fd) :: fsC.files.filter
        (fun e => !(e.1 == r.dst) && !(e.1 == r.src)), fsC.dirs⟩ with hinner
    set fsC2 := inner.rmdirIfEmpty (parentOf r.dst) with hfsC2
    have hC2files : fsC2.files
        = (r.src, fd) :: fsC.files.filter
            (fun e => !(e.1 == r.dst) && !(e.1 == r.src)) := by
      rw [hfsC2, rmdirIfEmpty_files]
    have hC2lookup : ∀ q, fsC2.files.lookup q
        = if q = r.src then some fd
          else if q = r.dst then none else fsC.files.lookup q := by
      intro q
      rw [hC2files]
      exact lookup_move_files fsC r.dst r.src fd q
    have hC2sub : ∀ x ∈ fsC2.dirs, x ∈ fsC.dirs := by
      intro x hx
      rw [hfsC2] at hx
      exact rmdirIfEmpty_dirs_subset inner (parentOf r.dst) x hx
    have hsrcne_par : source ≠ parentOf r.dst := by
      rw [hdn, parentOf_concat2]
      exact source_ne_shape1
    have hC2src0 : source ∈ fsC2.dirs := by
      rw [hfsC2]
      exact rmdirIfEmpty_dirs_keep hctx.uSource hsrcne_par
    have hctx2 : UndoCtx fs0 source P0 fsC2 := by
      refine ⟨?_, ?_, ?_, ?_, ?_, ?_, ?_, ?_, ?_, ?_, ?_, hC2src0, ?_, ?_, ?_⟩
      · exact fun x hx => hctx.srcShape x (hmem0 x hx)
      · exact fun x hx => hctx.dstShape x (hmem0 x hx)
      · exact fun x hx => hctx.srcSome x (hmem0 x hx)
      · exact fun x hx => hctx.dstFresh x (hmem0 x hx)
      · intro x hx
        rw [hC2lookup, if_neg (hsrc_ne x hx), if_neg (hlen_ne x (hmem0 x hx) r hrP)]
        exact hctx.lookSrc x (hmem0 x hx)
      · intro x hx
        rw [hC2lookup, if_neg (fun he => hlen_ne r hrP x (hmem0 x hx) he.symm),
          if_neg (hdst_ne x hx)]
        exact hctx.lookDst x (hmem0 x hx)
      · intro q hq
        rw [hC2lookup]
        by_cases h1 : q = r.src
        · subst h1
          rw [if_pos rfl, hfd]
        · rw [if_neg h1]
          by_cases h2 : q = r.dst
          · subst h2
            rw [if_pos rfl, (hctx.dstFresh r hrP).1]
          · rw [if_neg h2]
            exact hctx.lookOther q (fun x hx => by
              rcases List.mem_append.mp hx with h3 | h3
              · exact hq x h3
              · rcases List.mem_singleton.mp h3 with rfl
                exact ⟨h1, h2⟩)
      · have hpair := hctx.orderPair
        rw [List.pairwise_append] at hpair
        exact hpair.1
      · exact fun x hx => hctx.orderDiag x (hmem0 x hx)
      · exact (List.nodup_append.mp hsrcnd).1
      · exact (List.nodup_append.mp hdstnd).1
      · intro x hx
        exact hctx.uDirsShape x (hC2sub x hx)
      · -- uB: a surviving created directory still has a pending record into it
        intro x hx hx0
        rcases hctx.uB x (hC2sub x hx) hx0 with ⟨r2, hr2, hre⟩
        rcases List.mem_append.mp hr2 with h2 | h2
        · exact ⟨r2, h2, hre⟩
        · rw [List.mem_singleton.mp h2] at hre
          by_cases hex2 : ∃ r3 ∈ P0, parentOf r3.dst = x
          · exact hex2
          · exfalso
            refine (?_ : x ∉ fsC2.dirs) hx
            rw [hfsC2, ← hre]
            apply rmdirIfEmpty_removes
            apply dirNonempty_false
            · -- no file of `inner` lies in the emptied directory
              intro e he
              rcases List.mem_cons.mp he with h3 | h3
              · rw [h3]
                show inDir r.src (parentOf r.dst) = false
                unfold inDir
                rw [hnm, hdn, List.dropLast_concat, parentOf_concat2]
                have : (source == source ++ [cr]) = false := by
                  simp [source_ne_shape1]
                rw [this]
                simp
              · have hfl := List.mem_filter.mp h3
                have hne1 : e.1 ≠ r.dst := by
                  have := hfl.2
                  rcases Bool.and_eq_true_iff.mp this with ⟨hh, _⟩
                  simpa using hh
                have heC : e ∈ fsC.files := hfl.1
                cases hb : inDir e.1 (parentOf r.dst)
                · rfl
                · exfalso
                  obtain ⟨_, hpar⟩ := inDir_spec hb
                  have hlkC : fsC.files.lookup e.1 = some e.2 :=
                    mem_lookup_of_nodup hctx.uNodup
                      (by rcases e with ⟨a, b⟩; exact heC)
                  by_cases hcl : ∃ r2 ∈ P0 ++ [r], e.1 = r2.src ∨ e.1 = r2.dst
                  · rcases hcl with ⟨r2, hr2b, hc | hc⟩
                    · rw [hc, hctx.lookSrc r2 hr2b] at hlkC
                      cases hlkC
                    · rcases List.mem_append.mp hr2b with h4 | h4
                      · apply hex2
                        refine ⟨r2, h4, ?_⟩
                        rw [← hre, ← hpar, hc]
                        rfl
                      · rw [List.mem_singleton.mp h4] at hc
                        exact hne1 hc
                  · push_neg at hcl
                    have := hctx.lookOther e.1 (fun r2 hr2b => hcl r2 hr2b)
                    rw [this] at hlkC
                    have hmemf := mem_of_lookup_eq_some hlkC
                    have hpp : e.1.dropLast ∈ fs0.dirs := hwf.fileParents _ hmemf
                    rw [hpar, hre] at hpp
                    exact hx0 hpp
            · -- no directory of `inner` lies in the emptied directory
              intro y hy
              cases hb : inDir y (parentOf r.dst)
              · rfl
              · exfalso
                obtain ⟨hyne, hpar⟩ := inDir_spec hb
                have hyC : y ∈ fsC.dirs := hy
                rcases hctx.uDirsShape y hyC with h3 | ⟨cy, h3⟩
                · rcases hwf.dirParents y h3 with h4 | h4
                  · exact hyne h4
                  · have : parentOf r.dst ∈ fs0.dirs := by
                      rw [← hpar]
                      exact h4
                    rw [hre] at this
                    exact hx0 this
                · rw [h3, List.dropLast_concat] at hpar
                  rw [hdn, parentOf_concat2] at hpar
                  exact source_ne_shape1 hpar
      · -- uNodup
        rw [hC2files, List.map_cons, List.nodup_cons]
        constructor
        · intro hmem
          rcases List.mem_map.mp hmem with ⟨e, he, hee⟩
          have := (List.mem_filter.mp he).2
          rw [hee] at this
          simp at this
        · have hsl : (fsC.files.filter
              (fun e => !(e.1 == r.dst) && !(e.1 == r.src))).Sublist fsC.files :=
            List.filter_sublist _
          exact (hsl.map Prod.fst).nodup hctx.uNodup
    rcases ih fsC2 warns0 hctx2 with ⟨fs2, hfold, heq⟩
    exact ⟨fs2, hfold, heq⟩

theorem runFacts_to_undoCtx {fs0 : FS} {source : FsPath} {recs : List MoveRecord}
    {st : OrganizerState} (hsrc : source ∈ fs0.dirs)
    (hrf : RunFacts fs0 source recs st) :
    UndoCtx fs0 source recs st.fs :=
  ⟨hrf.srcShape, hrf.dstShape, hrf.srcSome, hrf.dstFresh, hrf.lookSrc, hrf.lookDst,
    hrf.lookOther, hrf.orderPair, hrf.orderDiag, hrf.srcNodup, hrf.dstNodup,
    hrf.dirsMono source hsrc,
    fun x hx => (hrf.dirsNew x hx).imp id (fun h => h.1),
    fun x hx hx0 => by
      rcases hrf.dirsNew x hx with h | ⟨_, r, hr, hre⟩
      · exact absurd h hx0
      · exact ⟨r, hr, hre⟩,
    hrf.wfNodup⟩

/-- C1: undo is a left inverse of a real run.  For any sequence of direct
children of the source directory processed with `dry_run=false` from a
well-formed filesystem with no ledger, running `undo_last_operation`
immediately afterwards succeeds with no warnings, restores the file map
exactly to its initial state (every moved file back at its original source
path, nothing else disturbed), and leaves no ledger file. -/
theorem C1_undo_left_inverse (eng : Engine) (fmtDate : Nat → String) (now : Nat)
    (fs0 : FS) (sim : List FsPath) (ps : List FsPath)
    (st2 : OrganizerState) (ds : List FsPath)
    (hdry : eng.dry_run = false)
    (hwf : fs0.Wf)
    (hsrc : eng.source ∈ fs0.dirs)
    (hps : ∀ p ∈ ps, ∃ nm, p = eng.source ++ [nm])
    (hrun : runAll eng fmtDate now ⟨fs0, LedgerFile.absent, sim⟩ ps
        = some (st2, ds)) :
    ∃ st3, undo_last_operation eng st2 = some (st3, [])
      ∧ (∀ q, st3.fs.files.lookup q = fs0.files.lookup q)
      ∧ st3.ledger = LedgerFile.absent := by
  rcases runAll_runFacts eng fmtDate now fs0 hdry ps ⟨fs0, LedgerFile.absent, sim⟩
    [] st2 ds hps (runFacts_init fs0 eng.source sim hwf) hrun with ⟨recs, hrf⟩
  match hrecs : recs with
  | [] =>
    have hled : st2.ledger = LedgerFile.absent := by
      rw [hrf.ledger]
      rfl
    refine ⟨st2, ?_, ?_, hled⟩
    · unfold undo_last_operation
      rw [hled]
    · intro q
      exact hrf.lookOther q (fun r hr => absurd hr (List.not_mem_nil r))
  | r0 :: recs2 =>
    have hled : st2.ledger = LedgerFile.valid (r0 :: recs2) := by
      rw [hrf.ledger]
      rfl
    have hctx := runFacts_to_undoCtx hsrc hrf
    rcases undo_run_fold fs0 eng.source hwf (r0 :: recs2) st2.fs [] hctx with
      ⟨fs2, hfold, heq⟩
    refine ⟨⟨fs2, LedgerFile.absent, st2.simulated_files⟩, ?_, heq, rfl⟩
    simp only [undo_last_operation, hled, List.isEmpty_cons, Bool.false_eq_true,
      if_false, hdry]
    rw [hfold]
    rfl

/-- The concrete C1 example: two identically-filled files, the second
quarantined as a duplicate; initial and final states of the run. -/
def c1Fs0 : FS :=
  ⟨[(["s", "a.txt"], ⟨some [1], 5⟩), (["s", "b.txt"], ⟨some [1], 6⟩)], [["s"], []]⟩

def c1St2 : OrganizerState :=
  ⟨⟨[(["s", "Duplicates", "b.txt"], ⟨some [1], 6⟩),
     (["s", "Misc_Documents", "Misc_Document_2024-01-01_01.txt"], ⟨some [1], 5⟩)],
    [["s", "Duplicates"], ["s", "Misc_Documents"], ["s"], []]⟩,
   LedgerFile.valid
     [⟨["s", "a.txt"], ["s", "Misc_Documents", "Misc_Document_2024-01-01_01.txt"], 9⟩,
      ⟨["s", "b.txt"], ["s", "Duplicates", "b.txt"], 9⟩],
   []⟩

/-- C1 witness. -/
theorem C1_undo_left_inverse_witness :
    engReal.dry_run = false
    ∧ ["s"] ∈ c1Fs0.dirs
    ∧ runAll engReal fmtEx 9 ⟨c1Fs0, LedgerFile.absent, []⟩
        [["s", "a.txt"], ["s", "b.txt"]]
      = some (c1St2,
          [["s", "Misc_Documents", "Misc_Document_2024-01-01_01.txt"],
           ["s", "Duplicates", "b.txt"]])
    ∧ (∃ st3, undo_last_operation engReal c1St2 = some (st3, [])
        ∧ (∀ q, st3.fs.files.lookup q = c1Fs0.files.lookup q)
        ∧ st3.ledger = LedgerFile.absent) := by
  refine ⟨rfl, by decide, by decide, ?_⟩
  exact C1_undo_left_inverse engReal fmtEx 9 c1Fs0 [] [["s", "a.txt"], ["s", "b.txt"]]
    c1St2
    [["s", "Misc_Documents", "Misc_Document_2024-01-01_01.txt"],
     ["s", "Duplicates", "b.txt"]]
    rfl ⟨by decide, by decide, by decide, by decide⟩ (by decide)
    (by
      intro p hp
      fin_cases hp
      · exact ⟨"a.txt", rfl⟩
      · exact ⟨"b.txt", rfl⟩)
    (by decide)
